import Mathlib

/-!
Verification of the s3-format-fixer repository (src/main.go) against its
natural-language specification.

The development shallowly embeds the two pure stages of the program:

* the text normalizer `parseUnquotedJSON` (three ordered regex-substitution
  passes, `src/main.go` lines 187-198), modelled as character-list scanners
  that reproduce Go `regexp.ReplaceAllString` leftmost-first, non-overlapping
  replacement for the three concrete patterns used by the source;
* the envelope codec: `snsTimestamp.MarshalJSON`/`UnmarshalJSON`
  (lines 23-43, including the `exitErrorf` process-exit path and Go `int64`
  wrap-around in `Time.UnixNano`), `messageAttributes.MarshalJSON`/
  `UnmarshalJSON` (lines 51-65), the `sns`/`snsEvent` structs (lines 67-85)
  and the `encoding/json` object binding and marshalling they rely on.

Machine integers are modelled as `Int` with explicit two's-complement
wrap-around (`wrap64`) where the Go code can overflow, and Go's truncating
`int64` division is `Int.tdiv`.
-/

namespace S3Fixer

/-! ## Character classes of the three regular expressions -/

/-- The class `[a-z0-9A-Z_]` — the identifier class of pass 1 (key quoting). -/
def isIdentChar (c : Char) : Bool :=
  (('a' ≤ c && c ≤ 'z') || ('A' ≤ c && c ≤ 'Z') || ('0' ≤ c && c ≤ '9') || c = '_')

/-- The class `['"]` — the optional-quote class used by all three passes. -/
def isQuoteChar (c : Char) : Bool := c = '\'' || c = '"'

/-- The class `[a-z0-9A-Z_\/\.\-\:\?\&\=\+]` — the safe value class of pass 2. -/
def isSafeChar (c : Char) : Bool :=
  isIdentChar c || c = '/' || c = '.' || c = '-' || c = ':' || c = '?' || c = '&' || c = '='
    || c = '+'

/-- The class `[0-9\.]` — the numeric class of pass 3. -/
def isNumChar (c : Char) : Bool := ('0' ≤ c && c ≤ '9') || c = '.'

/-- Go regexp `\s`, i.e. `[\t\n\f\r ]`. -/
def isWSChar (c : Char) : Bool :=
  c = ' ' || c = '\t' || c = '\n' || c = '\r' || c = '\x0c'

/-- Consume one leading quote character if present (an `(['"])?` group). -/
def dropOptQuote : List Char → List Char
  | [] => []
  | c :: rest => if isQuoteChar c then rest else c :: rest

theorem dropOptQuote_length_le (l : List Char) : (dropOptQuote l).length ≤ l.length := by
  rcases l with _ | ⟨c, t⟩
  · simp [dropOptQuote]
  · by_cases hc : isQuoteChar c <;> simp [dropOptQuote, hc]

/-! ## Pass 1: `(['"])?([a-z0-9A-Z_]+)(['"])?:\s` → `"$2": `

A match attempt at a fixed position is deterministic: the optional quote
groups and the maximal identifier run admit no alternative parses
(identifier characters are never quotes, and shortening the greedy `+`
cannot help because the following character would then be an identifier
character, which matches neither `['"]` nor `:`). -/

/-- Pass-1 match at the head: returns `(replacement, rest after the match)`. -/
def matchP1 (xs : List Char) : Option (List Char × List Char) :=
  match dropOptQuote ((dropOptQuote xs).dropWhile isIdentChar) with
  | z :: c :: rest =>
    if z = ':' && !((dropOptQuote xs).takeWhile isIdentChar).isEmpty && isWSChar c then
      some ('"' :: (dropOptQuote xs).takeWhile isIdentChar ++ ['"', ':', ' '], rest)
    else none
  | _ => none

theorem matchP1_some_length {xs rep rest} (h : matchP1 xs = some (rep, rest)) :
    rest.length < xs.length := by
  have hzle : (dropOptQuote ((dropOptQuote xs).dropWhile isIdentChar)).length ≤ xs.length :=
    le_trans (dropOptQuote_length_le _)
      (le_trans (List.Sublist.length_le (List.dropWhile_sublist _)) (dropOptQuote_length_le _))
  unfold matchP1 at h
  rcases hz : dropOptQuote ((dropOptQuote xs).dropWhile isIdentChar) with _ | ⟨z, _ | ⟨c, rest'⟩⟩ <;>
    rw [hz] at h hzle <;> simp at h
  obtain ⟨-, -, h2⟩ := h
  subst h2
  simp at hzle
  omega

/-- Pass-1 scanner: Go `ReplaceAllString` — try a match at every position,
left to right; on a match emit the replacement and continue after the match
(replacements are never rescanned). -/
def scan1 : List Char → List Char
  | [] => []
  | x :: xs =>
    match h : matchP1 (x :: xs) with
    | some (rep, rest) => rep ++ scan1 rest
    | none => x :: scan1 xs
termination_by l => l.length
decreasing_by
  · exact matchP1_some_length h
  · simp

/-! ## Pass 2: `: (['"])?([a-z0-9A-Z_\/\.\-\:\?\&\=\+]+)(['"])?` → `: "$2"` -/

/-- Pass-2 match at the head. -/
def matchP2 (xs : List Char) : Option (List Char × List Char) :=
  match xs with
  | x :: y :: rest =>
    if x = ':' && y = ' ' && !((dropOptQuote rest).takeWhile isSafeChar).isEmpty then
      some (':' :: ' ' :: '"' :: (dropOptQuote rest).takeWhile isSafeChar ++ ['"'],
            dropOptQuote ((dropOptQuote rest).dropWhile isSafeChar))
    else none
  | _ => none

theorem matchP2_some_length {xs rep rest} (h : matchP2 xs = some (rep, rest)) :
    rest.length < xs.length := by
  unfold matchP2 at h
  rcases xs with _ | ⟨x, _ | ⟨y, zs⟩⟩ <;> simp at h
  obtain ⟨-, -, h2⟩ := h
  have hle : (dropOptQuote ((dropOptQuote zs).dropWhile isSafeChar)).length ≤ zs.length :=
    le_trans (dropOptQuote_length_le _)
      (le_trans (List.Sublist.length_le (List.dropWhile_sublist _)) (dropOptQuote_length_le _))
  rw [h2] at hle
  simp only [List.length_cons]
  omega

/-- Pass-2 scanner. -/
def scan2 : List Char → List Char
  | [] => []
  | x :: xs =>
    match h : matchP2 (x :: xs) with
    | some (rep, rest) => rep ++ scan2 rest
    | none => x :: scan2 xs
termination_by l => l.length
decreasing_by
  · exact matchP2_some_length h
  · simp

/-! ## Pass 3: `: (["']?)([0-9\.]+)(["']?),` → `: $2,` -/

/-- Pass-3 match at the head.  After the greedy numeric run and the optional
closing-quote group, the literal `,` of the pattern must follow. -/
def matchP3 (xs : List Char) : Option (List Char × List Char) :=
  match xs with
  | x :: y :: rest =>
    if x = ':' && y = ' ' && !((dropOptQuote rest).takeWhile isNumChar).isEmpty
        && ((dropOptQuote ((dropOptQuote rest).dropWhile isNumChar)).head? == some ',') then
      some (':' :: ' ' :: (dropOptQuote rest).takeWhile isNumChar ++ [','],
            (dropOptQuote ((dropOptQuote rest).dropWhile isNumChar)).tail)
    else none
  | _ => none

theorem matchP3_some_length {xs rep rest} (h : matchP3 xs = some (rep, rest)) :
    rest.length < xs.length := by
  unfold matchP3 at h
  rcases xs with _ | ⟨x, _ | ⟨y, zs⟩⟩ <;> simp at h
  obtain ⟨-, -, h2⟩ := h
  have hle : (dropOptQuote ((dropOptQuote zs).dropWhile isNumChar)).length ≤ zs.length :=
    le_trans (dropOptQuote_length_le _)
      (le_trans (List.Sublist.length_le (List.dropWhile_sublist _)) (dropOptQuote_length_le _))
  have htail := List.length_tail (dropOptQuote ((dropOptQuote zs).dropWhile isNumChar))
  rw [h2] at htail
  simp only [List.length_cons]
  omega

/-- Pass-3 scanner. -/
def scan3 : List Char → List Char
  | [] => []
  | x :: xs =>
    match h : matchP3 (x :: xs) with
    | some (rep, rest) => rep ++ scan3 rest
    | none => x :: scan3 xs
termination_by l => l.length
decreasing_by
  · exact matchP3_some_length h
  · simp

/-- Pass 1 as a string transformer (key quoting). -/
def pass1 (s : String) : String := ⟨scan1 s.data⟩

/-- Pass 2 as a string transformer (value quoting). -/
def pass2 (s : String) : String := ⟨scan2 s.data⟩

/-- Pass 3 as a string transformer (numeric unquoting). -/
def pass3 (s : String) : String := ⟨scan3 s.data⟩

/-- Function `parseUnquotedJSON` (src/main.go:187-198): the three ordered
regex-substitution passes of the text normalizer. -/
def parseUnquotedJSON (unquotedJSON : String) : String :=
  pass3 (pass2 (pass1 unquotedJSON))

/-! ## The `snsTimestamp` codec (src/main.go:20-43)

`UnmarshalJSON` first unmarshals the raw bytes into a Go `string`
(an error for any non-string, non-null JSON value), then runs
`time.Parse(time.RFC3339, timestamp)`; on a parse failure it calls
`exitErrorf`, i.e. `log.Fatalf` → `os.Exit(1)`, terminating the process.
On success it stores `t.UnixNano() / int64(time.Millisecond)`.
`Time.UnixNano` computes seconds-since-epoch times 1e9 in `int64`
arithmetic, which wraps around two's-complement for times outside roughly
the years 1678-2262; the division is Go's truncating `int64` division
(`Int.tdiv`).

`MarshalJSON` formats `time.Unix(0, int64(ts)).UnixNano()` in decimal:
`time.Unix(0, n)` normalizes `n` into (sec, nsec) and `UnixNano`
recomposes `sec*1e9 + nsec`. -/

/-- Decode outcome: a typed success, a returned error, or process
termination through `exitErrorf` (src/main.go:87-90). -/
inductive Dec (α : Type) where
  | ok : α → Dec α
  | err : Dec α
  | exit : Dec α
deriving DecidableEq, Repr

/-- Two's-complement wrap-around of mathematical integers into `int64`. -/
def wrap64 (n : Int) : Int := (n + 2 ^ 63) % 2 ^ 64 - 2 ^ 63

/-- Go leap-year rule (`time.isLeap`). -/
def isLeap (y : Int) : Bool := y % 4 = 0 && (y % 100 ≠ 0 || y % 400 = 0)

/-- Days in a month, as validated by `time.Parse` (`daysIn`). -/
def daysInMonth (y : Int) (m : Nat) : Nat :=
  if m = 2 then (if isLeap y then 29 else 28)
  else if m = 4 || m = 6 || m = 9 || m = 11 then 30
  else 31

/-- Days from the Unix epoch to the civil date y-m-d (proleptic Gregorian);
the standard era-based computation equivalent to Go's `Date`/`absDate`
arithmetic. -/
def daysFromCivil (y : Int) (m d : Nat) : Int :=
  let yy : Int := if m ≤ 2 then y - 1 else y
  let era : Int := yy.fdiv 400
  let yoe : Int := yy - era * 400
  let mp : Int := if m ≤ 2 then (m : Int) + 9 else (m : Int) - 3
  let doy : Int := (153 * mp + 2).fdiv 5 + (d : Int) - 1
  let doe : Int := yoe * 365 + yoe.fdiv 4 - yoe.fdiv 100 + doy
  era * 146097 + doe - 719468

/-- Parse exactly `n` decimal digits, returning their value and the rest. -/
def parseDigits : Nat → List Char → Option (Nat × List Char)
  | 0, cs => some (0, cs)
  | n + 1, c :: cs =>
    if '0' ≤ c && c ≤ '9' then
      match parseDigits n cs with
      | some (v, rest) => some ((c.toNat - 48) * 10 ^ n + v, rest)
      | none => none
    else none
  | _ + 1, [] => none

/-- Fractional seconds: `.` followed by 1-9 digits, scaled to nanoseconds
(`parseNanoseconds`); absent fraction contributes 0. -/
def parseFrac : List Char → Option (Nat × List Char)
  | '.' :: cs =>
    let ds := cs.takeWhile (fun c => '0' ≤ c && c ≤ '9')
    if ds.length = 0 || 9 < ds.length then none
    else
      some ((ds.foldl (fun a c => a * 10 + (c.toNat - 48)) 0) * 10 ^ (9 - ds.length),
            cs.dropWhile (fun c => '0' ≤ c && c ≤ '9'))
  | cs => some (0, cs)

/-- Timezone suffix: `Z` or `±hh:mm`; returns the zone offset in seconds.
The whole input must end here (`time.Parse` rejects trailing text). -/
def parseZone : List Char → Option Int
  | ['Z'] => some 0
  | s :: rest =>
    if s = '+' || s = '-' then
      match rest with
      | [h1, h2, ':', m1, m2] =>
        match parseDigits 2 [h1, h2], parseDigits 2 [m1, m2] with
        | some (hh, _), some (mm, _) =>
          if hh ≤ 23 && mm ≤ 59 then
            some ((if s = '-' then -1 else 1) * ((hh : Int) * 3600 + (mm : Int) * 60))
          else none
        | _, _ => none
      | _ => none
    else none
  | _ => none

/-- Go `time.Parse(time.RFC3339, s)`: `YYYY-MM-DDThh:mm:ss[.fraction](Z|±hh:mm)`
with the range validation `time.Parse` performs (month 1-12, day within the
month, hour ≤ 23, minute/second ≤ 59).  Returns the mathematical number of
nanoseconds since the Unix epoch (unbounded; callers wrap to `int64`). -/
def parseRFC3339 (s : String) : Option Int :=
  match parseDigits 4 s.data with
  | some (y, '-' :: r1) =>
    match parseDigits 2 r1 with
    | some (mo, '-' :: r2) =>
      match parseDigits 2 r2 with
      | some (d, 'T' :: r3) =>
        match parseDigits 2 r3 with
        | some (h, ':' :: r4) =>
          match parseDigits 2 r4 with
          | some (mi, ':' :: r5) =>
            match parseDigits 2 r5 with
            | some (sec, r6) =>
              match parseFrac r6 with
              | some (ns, r7) =>
                match parseZone r7 with
                | some off =>
                  if 1 ≤ mo && mo ≤ 12 && 1 ≤ d && d ≤ daysInMonth (y : Int) mo
                      && h ≤ 23 && mi ≤ 59 && sec ≤ 59 then
                    some ((daysFromCivil (y : Int) mo d * 86400
                      + (h : Int) * 3600 + (mi : Int) * 60 + (sec : Int) - off) * 1000000000
                      + (ns : Int))
                  else none
                | none => none
              | none => none
            | _ => none
          | _ => none
        | _ => none
      | _ => none
    | _ => none
  | _ => none

/-- The stored value of a successfully decoded `snsTimestamp`:
`t.UnixNano() / int64(time.Millisecond)` with `int64` wrap-around and Go's
truncating division (src/main.go:41). -/
def tsOfNanos (ns : Int) : Int := (wrap64 ns).tdiv 1000000

/-- Method `snsTimestamp.MarshalJSON` (src/main.go:23-28):
`strconv.FormatInt(time.Unix(0, int64(ts)).UnixNano(), 10)`.
`time.Unix(0, n)` splits `n` into truncated-division quotient and
remainder by 1e9 and re-normalizes a negative remainder; `UnixNano`
recomposes `sec*1e9 + nsec` in wrapping `int64` arithmetic. -/
def snsTimestampMarshal (ts : Int) : String :=
  toString (wrap64 (if ts - ts.tdiv 1000000000 * 1000000000 < 0 then
    (ts.tdiv 1000000000 - 1) * 1000000000 + (ts - ts.tdiv 1000000000 * 1000000000 + 1000000000)
  else
    ts.tdiv 1000000000 * 1000000000 + (ts - ts.tdiv 1000000000 * 1000000000)))

/-! ## JSON values and the subset of `encoding/json` the program exercises

`Json` is the abstract value a piece of JSON text denotes.  Numbers are
integral (`Int`): every number the program itself produces or that any
claim exercises is integral; fractional and exponent literals are not
modelled, so `jsonParse` rejects them (a strict subset of Go's syntax).
String escapes cover the standard single-character escapes; `\uXXXX` is
not modelled (no claim exercises it). -/

inductive Json where
  | null : Json
  | bool : Bool → Json
  | num : Int → Json
  | str : String → Json
  | arr : List Json → Json
  | obj : List (String × Json) → Json
deriving BEq, Repr

/-- JSON whitespace (RFC 8259 / `encoding/json`). -/
def isJsonWS (c : Char) : Bool := c = ' ' || c = '\t' || c = '\n' || c = '\r'

def skipWS (cs : List Char) : List Char := cs.dropWhile isJsonWS

/-- String body after the opening `"`. -/
def parseStringBody : Nat → List Char → Option (String × List Char)
  | 0, _ => none
  | _ + 1, [] => none
  | fuel + 1, c :: cs =>
    if c = '"' then some ("", cs)
    else if c = '\\' then
      match cs with
      | e :: cs' =>
        let esc : Option Char :=
          if e = '"' then some '"' else if e = '\\' then some '\\'
          else if e = '/' then some '/' else if e = 'n' then some '\n'
          else if e = 't' then some '\t' else if e = 'r' then some '\r'
          else if e = 'b' then some '\x08' else if e = 'f' then some '\x0c'
          else none
        match esc with
        | some d =>
          match parseStringBody fuel cs' with
          | some (s, rest) => some (⟨d :: s.data⟩, rest)
          | none => none
        | none => none
      | [] => none
    else
      match parseStringBody fuel cs with
      | some (s, rest) => some (⟨c :: s.data⟩, rest)
      | none => none

/-- JSON number: optional `-`, then `0` or a nonzero-led digit run. -/
def parseNumber (cs : List Char) : Option (Int × List Char) :=
  let (neg, cs') := match cs with
    | '-' :: rest => (true, rest)
    | _ => (false, cs)
  match cs' with
  | c :: _ =>
    if ('0' ≤ c && c ≤ '9') then
      let ds := cs'.takeWhile (fun d => '0' ≤ d && d ≤ '9')
      if c = '0' && 1 < ds.length then none
      else
        let v : Int := ds.foldl (fun a d => a * 10 + ((d.toNat : Int) - 48)) 0
        some (if neg then -v else v, cs'.dropWhile (fun d => '0' ≤ d && d ≤ '9'))
    else none
  | [] => none

mutual
/-- One JSON value starting at the head (leading whitespace allowed). -/
def parseVal : Nat → List Char → Option (Json × List Char)
  | 0, _ => none
  | fuel + 1, cs =>
    match skipWS cs with
    | '{' :: rest =>
      match skipWS rest with
      | '}' :: rest' => some (.obj [], rest')
      | _ =>
        match parseMembers fuel (skipWS rest) with
        | some (fs, rest') => some (.obj fs, rest')
        | none => none
    | '[' :: rest =>
      match skipWS rest with
      | ']' :: rest' => some (.arr [], rest')
      | _ =>
        match parseElems fuel (skipWS rest) with
        | some (vs, rest') => some (.arr vs, rest')
        | none => none
    | '"' :: rest =>
      match parseStringBody (rest.length + 1) rest with
      | some (s, rest') => some (.str s, rest')
      | none => none
    | 't' :: 'r' :: 'u' :: 'e' :: rest => some (.bool true, rest)
    | 'f' :: 'a' :: 'l' :: 's' :: 'e' :: rest => some (.bool false, rest)
    | 'n' :: 'u' :: 'l' :: 'l' :: rest => some (.null, rest)
    | other =>
      match parseNumber other with
      | some (n, rest) => some (.num n, rest)
      | none => none

/-- Object `"key": value` members, at least one, separated by `,`. -/
def parseMembers : Nat → List Char → Option (List (String × Json) × List Char)
  | 0, _ => none
  | fuel + 1, cs =>
    match cs with
    | '"' :: rest =>
      match parseStringBody (rest.length + 1) rest with
      | some (k, rest') =>
        match skipWS rest' with
        | ':' :: rest2 =>
          match parseVal fuel rest2 with
          | some (v, rest3) =>
            match skipWS rest3 with
            | ',' :: rest4 =>
              match parseMembers fuel (skipWS rest4) with
              | some (fs, rest5) => some ((k, v) :: fs, rest5)
              | none => none
            | '}' :: rest4 => some ([(k, v)], rest4)
            | _ => none
          | none => none
        | _ => none
      | none => none
    | _ => none

/-- Array elements, at least one, separated by `,`. -/
def parseElems : Nat → List Char → Option (List Json × List Char)
  | 0, _ => none
  | fuel + 1, cs =>
    match parseVal fuel cs with
    | some (v, rest) =>
      match skipWS rest with
      | ',' :: rest2 =>
        match parseElems fuel rest2 with
        | some (vs, rest3) => some (v :: vs, rest3)
        | none => none
      | ']' :: rest2 => some ([v], rest2)
      | _ => none
    | none => none
end

/-- Go `json.Unmarshal`'s syntax stage: one JSON value, then only whitespace
(extra non-space text after the top-level value is an error). -/
def jsonParse (s : String) : Option Json :=
  match parseVal (s.length + 1) s.data with
  | some (v, rest) => if (skipWS rest).isEmpty then some v else none
  | none => none

/-! ## The `messageAttributes` codec (src/main.go:45-65) -/

/-- The `messageAttributes` struct (src/main.go:45-48). -/
structure MessageAttributes where
  key : String
  value : String
deriving DecidableEq, Repr

/-- Can a JSON value be unmarshalled into a Go `string` map entry?
`encoding/json` accepts a string (stored) or `null` (a no-op). -/
def isStringLike : Json → Bool
  | .str _ => true
  | .null => true
  | _ => false

/-- Method `messageAttributes.UnmarshalJSON` (src/main.go:56-65): unmarshal the
raw value into `map[string]string` — an error unless the value is an
object all of whose member values are strings (or nulls), or `null` —
then overwrite the receiver with the empty placeholder. -/
def messageAttributesUnmarshal (v : Json) : Dec MessageAttributes :=
  match v with
  | .obj fields => if fields.all (fun p => isStringLike p.2) then .ok ⟨"", ""⟩ else .err
  | .null => .ok ⟨"", ""⟩
  | _ => .err

/-- Method `messageAttributes.MarshalJSON` (src/main.go:51-54) always emits `{}`,
but `encoding/json` writes `null` for a nil `*messageAttributes` without
calling the marshaller (`marshalerEncoder`'s nil-pointer check). -/
def messageAttributesFieldMarshal : Option MessageAttributes → String
  | none => "null"
  | some _ => "{}"

/-- Round-trip of the `messageAttributes` field: decode, then re-encode;
`none` when the decode stage fails or exits. -/
def messageAttributesRoundtrip (v : Json) : Option String :=
  match messageAttributesUnmarshal v with
  | .ok m => some (messageAttributesFieldMarshal (some m))
  | _ => none

/-! ## The envelope structs and their `encoding/json` binding
(src/main.go:67-85)

Field tags are matched exactly; Go's case-insensitive fallback match is
not modelled (no claim exercises differently-cased keys).  `eventVersion`
is `float32` in the source; only integral values occur anywhere in scope,
so it is modelled as `Int`.  Object members are bound in document order
(later duplicates overwrite), mismatches produce `.err`, and the
timestamp codec can terminate the process (`.exit`). -/

structure Sns where
  messageAttributes : Option MessageAttributes := none
  signingCertUrl : String := ""
  messageId : String := ""
  message : String := ""
  unsubscribeUrl : String := ""
  snsType : String := ""
  signatureVersion : Int := 0
  signature : String := ""
  timestamp : Int := 0
  topicArn : String := ""
deriving DecidableEq, Repr

structure SnsEvent where
  sns : Sns := {}
  eventVersion : Int := 0
  eventSource : String := ""
  eventSubscriptionArn : String := ""
deriving DecidableEq, Repr

/-- Method `snsTimestamp.UnmarshalJSON` (src/main.go:30-43) applied to the JSON
value of the `timestamp` member: non-strings fail the inner
`json.Unmarshal` into `string` and return its error; `null` is a no-op
leaving the empty string, which then fails `time.Parse`; a string is
parsed as RFC3339 — a parse failure calls `exitErrorf` (process exit), and
success stores the (wrapped, truncated) millisecond value. -/
def snsTimestampUnmarshal (v : Json) : Dec Int :=
  match v with
  | .str s =>
    match parseRFC3339 s with
    | some ns => .ok (tsOfNanos ns)
    | none => .exit
  | .null => .exit
  | _ => .err

/-- Bind one JSON object member onto an `sns` value. -/
def setSnsField (s : Sns) (k : String) (v : Json) : Dec Sns :=
  if k = "messageAttributes" then
    match v with
    | .null => .ok { s with messageAttributes := none }
    | _ =>
      match messageAttributesUnmarshal v with
      | .ok m => .ok { s with messageAttributes := some m }
      | .err => .err
      | .exit => .exit
  else if k = "signingCertUrl" then
    match v with
    | .str x => .ok { s with signingCertUrl := x }
    | .null => .ok s
    | _ => .err
  else if k = "messageId" then
    match v with
    | .str x => .ok { s with messageId := x }
    | .null => .ok s
    | _ => .err
  else if k = "message" then
    match v with
    | .str x => .ok { s with message := x }
    | .null => .ok s
    | _ => .err
  else if k = "unsubscribeUrl" then
    match v with
    | .str x => .ok { s with unsubscribeUrl := x }
    | .null => .ok s
    | _ => .err
  else if k = "type" then
    match v with
    | .str x => .ok { s with snsType := x }
    | .null => .ok s
    | _ => .err
  else if k = "signatureVersion" then
    match v with
    | .num n => .ok { s with signatureVersion := n }
    | .null => .ok s
    | _ => .err
  else if k = "signature" then
    match v with
    | .str x => .ok { s with signature := x }
    | .null => .ok s
    | _ => .err
  else if k = "timestamp" then
    match snsTimestampUnmarshal v with
    | .ok t => .ok { s with timestamp := t }
    | .err => .err
    | .exit => .exit
  else if k = "topicArn" then
    match v with
    | .str x => .ok { s with topicArn := x }
    | .null => .ok s
    | _ => .err
  else .ok s

def bindSnsFields : Sns → List (String × Json) → Dec Sns
  | s, [] => .ok s
  | s, (k, v) :: rest =>
    match setSnsField s k v with
    | .ok s' => bindSnsFields s' rest
    | .err => .err
    | .exit => .exit

/-- Unmarshal a JSON value into `sns`. -/
def unmarshalSns (v : Json) : Dec Sns :=
  match v with
  | .obj fields => bindSnsFields {} fields
  | .null => .ok {}
  | _ => .err

/-- Bind one JSON object member onto an `snsEvent` value. -/
def setEventField (e : SnsEvent) (k : String) (v : Json) : Dec SnsEvent :=
  if k = "sns" then
    match unmarshalSns v with
    | .ok s => .ok { e with sns := s }
    | .err => .err
    | .exit => .exit
  else if k = "eventVersion" then
    match v with
    | .num n => .ok { e with eventVersion := n }
    | .null => .ok e
    | _ => .err
  else if k = "eventSource" then
    match v with
    | .str x => .ok { e with eventSource := x }
    | .null => .ok e
    | _ => .err
  else if k = "eventSubscriptionArn" then
    match v with
    | .str x => .ok { e with eventSubscriptionArn := x }
    | .null => .ok e
    | _ => .err
  else .ok e

def bindEventFields : SnsEvent → List (String × Json) → Dec SnsEvent
  | e, [] => .ok e
  | e, (k, v) :: rest =>
    match setEventField e k v with
    | .ok e' => bindEventFields e' rest
    | .err => .err
    | .exit => .exit

/-- Go `json.Unmarshal` of JSON text into `snsEvent` (src/main.go:136-137):
syntax errors and schema mismatches are `.err`; a bad timestamp string
exits the process. -/
def unmarshalSnsEvent (s : String) : Dec SnsEvent :=
  match jsonParse s with
  | none => .err
  | some (.obj fields) => bindEventFields {} fields
  | some .null => .ok {}
  | some _ => .err

/-! ## Marshalling (`json.Marshal(&event)`, src/main.go:144) -/

/-- Go's JSON string escaping (`encodeState.string` with HTML escaping on,
as `json.Marshal` uses): the standard short escapes, `\uXXXX` for other
control characters, and `<`, `>`, `&` HTML-escaped. -/
def goEscapeChar (c : Char) : List Char :=
  if c = '"' then ['\\', '"']
  else if c = '\\' then ['\\', '\\']
  else if c = '\n' then ['\\', 'n']
  else if c = '\r' then ['\\', 'r']
  else if c = '\t' then ['\\', 't']
  else if c = '<' then ['\\', 'u', '0', '0', '3', 'c']
  else if c = '>' then ['\\', 'u', '0', '0', '3', 'e']
  else if c = '&' then ['\\', 'u', '0', '0', '2', '6']
  else if c.toNat < 32 then
    let hex := fun (n : Nat) => if n < 10 then Char.ofNat (48 + n) else Char.ofNat (87 + n)
    ['\\', 'u', '0', '0', hex (c.toNat / 16), hex (c.toNat % 16)]
  else [c]

/-- A Go-marshalled JSON string literal. -/
def goQuote (s : String) : String :=
  ⟨'"' :: s.data.flatMap goEscapeChar ++ ['"']⟩

/-- Go `json.Marshal` of the `sns` struct: fields in declaration order, the
nil-aware `messageAttributes` marshaller, the custom timestamp
marshaller, compact output. -/
def marshalSns (s : Sns) : String :=
  "\x7b\"messageAttributes\":" ++ messageAttributesFieldMarshal s.messageAttributes
    ++ ",\"signingCertUrl\":" ++ goQuote s.signingCertUrl
    ++ ",\"messageId\":" ++ goQuote s.messageId
    ++ ",\"message\":" ++ goQuote s.message
    ++ ",\"unsubscribeUrl\":" ++ goQuote s.unsubscribeUrl
    ++ ",\"type\":" ++ goQuote s.snsType
    ++ ",\"signatureVersion\":" ++ toString s.signatureVersion
    ++ ",\"signature\":" ++ goQuote s.signature
    ++ ",\"timestamp\":" ++ snsTimestampMarshal s.timestamp
    ++ ",\"topicArn\":" ++ goQuote s.topicArn ++ "\x7d"

/-- Go `json.Marshal` of the whole `snsEvent`. -/
def marshalSnsEvent (e : SnsEvent) : String :=
  "\x7b\"sns\":" ++ marshalSns e.sns
    ++ ",\"eventVersion\":" ++ toString e.eventVersion
    ++ ",\"eventSource\":" ++ goQuote e.eventSource
    ++ ",\"eventSubscriptionArn\":" ++ goQuote e.eventSubscriptionArn ++ "\x7d"

/-- The per-record pipeline of `main` (src/main.go:132-144): normalize the
fetched text, decode it into `snsEvent`, re-encode.  `none` when decoding
errors or exits (the driver then terminates via `exitErrorf`). -/
def pipeline (contents : String) : Option String :=
  match unmarshalSnsEvent (parseUnquotedJSON contents) with
  | .ok e => some (marshalSnsEvent e)
  | _ => none

/-! ## Supporting lemmas -/

theorem natAbs_tdiv (a b : Int) : (a.tdiv b).natAbs = a.natAbs / b.natAbs := by
  cases a <;> cases b <;> simp only [Int.tdiv, Int.natAbs_neg] <;> rfl

theorem wrap64_eq_of_range {n : Int} (h1 : -(2 ^ 63) ≤ n) (h2 : n < 2 ^ 63) : wrap64 n = n := by
  unfold wrap64
  have h : (n + 2 ^ 63) % 2 ^ 64 = n + 2 ^ 63 := Int.emod_eq_of_lt (by omega) (by omega)
  omega

theorem snsTimestampMarshal_eq_wrap (ts : Int) :
    snsTimestampMarshal ts = toString (wrap64 ts) := by
  unfold snsTimestampMarshal
  split <;> (congr 2; ring)

theorem takeWhile_append_not {p : Char → Bool} {v w : List Char}
    (hv : ∀ c ∈ v, p c = true) (hw : ∀ c w', w = c :: w' → p c = false) :
    (v ++ w).takeWhile p = v := by
  induction v with
  | nil =>
    cases w with
    | nil => rfl
    | cons c w' => simp [List.takeWhile_cons, hw c w' rfl]
  | cons a v ih =>
    have ha := hv a (by simp)
    simp only [List.cons_append, List.takeWhile_cons, ha, if_true, List.cons.injEq, true_and]
    exact ih (fun c hc => hv c (by simp [hc]))

theorem dropWhile_append_not {p : Char → Bool} {v w : List Char}
    (hv : ∀ c ∈ v, p c = true) (hw : ∀ c w', w = c :: w' → p c = false) :
    (v ++ w).dropWhile p = w := by
  induction v with
  | nil =>
    cases w with
    | nil => rfl
    | cons c w' => simp [List.dropWhile_cons, hw c w' rfl]
  | cons a v ih =>
    simp only [List.cons_append, List.dropWhile_cons, hv a (by simp), if_true]
    exact ih (fun c hc => hv c (by simp [hc]))

theorem safe_not_quote {c : Char} (h : isSafeChar c = true) : isQuoteChar c = false := by
  by_contra hq
  have hq' : isQuoteChar c = true := by
    cases hh : isQuoteChar c
    · exact absurd hh hq
    · rfl
  have : c = '\'' ∨ c = '"' := by simpa [isQuoteChar] using hq'
  rcases this with h1 | h1 <;> subst h1 <;> exact absurd h (by decide)

theorem num_is_safe {c : Char} (h : isNumChar c = true) : isSafeChar c = true := by
  have : ('0' ≤ c ∧ c ≤ '9') ∨ c = '.' := by simpa [isNumChar] using h
  rcases this with ⟨h1, h2⟩ | h1
  · simp [isSafeChar, isIdentChar, h1, h2]
  · subst h1; decide

theorem dropOptQuote_cons_not {c : Char} {l : List Char} (h : isQuoteChar c = false) :
    dropOptQuote (c :: l) = c :: l := by simp [dropOptQuote, h]

/-- Step equation for `scan1` on a successful match. -/
theorem scan1_cons_some {x : Char} {xs rep rest : List Char}
    (h : matchP1 (x :: xs) = some (rep, rest)) :
    scan1 (x :: xs) = rep ++ scan1 rest := by
  rw [scan1]
  split
  · rename_i heq
    rw [h] at heq
    injection heq with heq
    injection heq with h1 h2
    rw [h1, h2]
  · rename_i heq
    rw [h] at heq
    exact absurd heq (by simp)

/-- Step equation for `scan1` on a failed match. -/
theorem scan1_cons_none {x : Char} {xs : List Char} (h : matchP1 (x :: xs) = none) :
    scan1 (x :: xs) = x :: scan1 xs := by
  rw [scan1]
  split
  · rename_i heq
    rw [h] at heq
    exact absurd heq (by simp)
  · rfl

/-- Step equation for `scan2` on a successful match. -/
theorem scan2_cons_some {x : Char} {xs rep rest : List Char}
    (h : matchP2 (x :: xs) = some (rep, rest)) :
    scan2 (x :: xs) = rep ++ scan2 rest := by
  rw [scan2]
  split
  · rename_i heq
    rw [h] at heq
    injection heq with heq
    injection heq with h1 h2
    rw [h1, h2]
  · rename_i heq
    rw [h] at heq
    exact absurd heq (by simp)

/-- Step equation for `scan2` on a failed match. -/
theorem scan2_cons_none {x : Char} {xs : List Char} (h : matchP2 (x :: xs) = none) :
    scan2 (x :: xs) = x :: scan2 xs := by
  rw [scan2]
  split
  · rename_i heq
    rw [h] at heq
    exact absurd heq (by simp)
  · rfl

/-- Step equation for `scan3` on a successful match. -/
theorem scan3_cons_some {x : Char} {xs rep rest : List Char}
    (h : matchP3 (x :: xs) = some (rep, rest)) :
    scan3 (x :: xs) = rep ++ scan3 rest := by
  rw [scan3]
  split
  · rename_i heq
    rw [h] at heq
    injection heq with heq
    injection heq with h1 h2
    rw [h1, h2]
  · rename_i heq
    rw [h] at heq
    exact absurd heq (by simp)

/-- Step equation for `scan3` on a failed match. -/
theorem scan3_cons_none {x : Char} {xs : List Char} (h : matchP3 (x :: xs) = none) :
    scan3 (x :: xs) = x :: scan3 xs := by
  rw [scan3]
  split
  · rename_i heq
    rw [h] at heq
    exact absurd heq (by simp)
  · rfl

/-! ### Fueled evaluation of the scanners

The scanners above recurse on the well-founded length order, mirroring the
replace loop directly; for closed-term evaluation (kernel reduction) the
same loop is expressed with structural fuel and proved equal. -/

/-- Fuel-indexed scanner; with fuel at least `xs.length` it equals the
corresponding well-founded scanner. -/
def scanF (m : List Char → Option (List Char × List Char)) : Nat → List Char → List Char
  | _, [] => []
  | 0, xs => xs
  | fuel + 1, x :: xs =>
    match m (x :: xs) with
    | some (rep, rest) => rep ++ scanF m fuel rest
    | none => x :: scanF m fuel xs

theorem scan1_nil : scan1 ([] : List Char) = [] := by rw [scan1]

theorem scanF_eq_scan1 : ∀ fuel (xs : List Char), xs.length ≤ fuel →
    scanF matchP1 fuel xs = scan1 xs := by
  intro fuel
  induction fuel with
  | zero =>
    intro xs h
    have : xs = [] := List.eq_nil_of_length_eq_zero (Nat.le_zero.mp h)
    subst this
    rw [scan1_nil]
    rfl
  | succ fuel ih =>
    intro xs h
    cases xs with
    | nil => rw [scan1_nil]; rfl
    | cons x xs =>
      rw [scanF]
      cases hm : matchP1 (x :: xs) with
      | some pr =>
        obtain ⟨rep, rest⟩ := pr
        have hlt := matchP1_some_length hm
        rw [scan1_cons_some hm]
        dsimp only
        rw [ih rest (by simp at h hlt ⊢; omega)]
      | none =>
        rw [scan1_cons_none hm]
        dsimp only
        rw [ih xs (by simp at h ⊢; omega)]

theorem scan2_nil : scan2 ([] : List Char) = [] := by rw [scan2]

theorem scanF_eq_scan2 : ∀ fuel (xs : List Char), xs.length ≤ fuel →
    scanF matchP2 fuel xs = scan2 xs := by
  intro fuel
  induction fuel with
  | zero =>
    intro xs h
    have : xs = [] := List.eq_nil_of_length_eq_zero (Nat.le_zero.mp h)
    subst this
    rw [scan2_nil]
    rfl
  | succ fuel ih =>
    intro xs h
    cases xs with
    | nil => rw [scan2_nil]; rfl
    | cons x xs =>
      rw [scanF]
      cases hm : matchP2 (x :: xs) with
      | some pr =>
        obtain ⟨rep, rest⟩ := pr
        have hlt := matchP2_some_length hm
        rw [scan2_cons_some hm]
        dsimp only
        rw [ih rest (by simp at h hlt ⊢; omega)]
      | none =>
        rw [scan2_cons_none hm]
        dsimp only
        rw [ih xs (by simp at h ⊢; omega)]

theorem scan3_nil : scan3 ([] : List Char) = [] := by rw [scan3]

theorem scanF_eq_scan3 : ∀ fuel (xs : List Char), xs.length ≤ fuel →
    scanF matchP3 fuel xs = scan3 xs := by
  intro fuel
  induction fuel with
  | zero =>
    intro xs h
    have : xs = [] := List.eq_nil_of_length_eq_zero (Nat.le_zero.mp h)
    subst this
    rw [scan3_nil]
    rfl
  | succ fuel ih =>
    intro xs h
    cases xs with
    | nil => rw [scan3_nil]; rfl
    | cons x xs =>
      rw [scanF]
      cases hm : matchP3 (x :: xs) with
      | some pr =>
        obtain ⟨rep, rest⟩ := pr
        have hlt := matchP3_some_length hm
        rw [scan3_cons_some hm]
        dsimp only
        rw [ih rest (by simp at h hlt ⊢; omega)]
      | none =>
        rw [scan3_cons_none hm]
        dsimp only
        rw [ih xs (by simp at h ⊢; omega)]

/-- Fueled form of the full normalizer, for closed-term evaluation. -/
def normalizeF (s : String) : String :=
  ⟨scanF matchP3 (scanF matchP2 (scanF matchP1 s.data.length s.data).length
      (scanF matchP1 s.data.length s.data)).length
    (scanF matchP2 (scanF matchP1 s.data.length s.data).length
      (scanF matchP1 s.data.length s.data))⟩

theorem parseUnquotedJSON_eq_normalizeF (s : String) :
    parseUnquotedJSON s = normalizeF s := by
  unfold parseUnquotedJSON normalizeF pass1 pass2 pass3
  rw [scanF_eq_scan1 _ _ (le_refl _), scanF_eq_scan2 _ _ (le_refl _),
    scanF_eq_scan3 _ _ (le_refl _)]

/-- Pass 2 on a bare (unquoted) all-safe value followed by a non-safe,
non-quote remainder: the value is wrapped in quotes, the remainder is the
continuation. -/
theorem matchP2_bare_value {v w : List Char} (hv0 : v ≠ [])
    (hv : ∀ c ∈ v, isSafeChar c = true)
    (hw : ∀ c w', w = c :: w' → isSafeChar c = false ∧ isQuoteChar c = false) :
    matchP2 (':' :: ' ' :: (v ++ w)) = some (':' :: ' ' :: '"' :: v ++ ['"'], w) := by
  rcases v with _ | ⟨a, v'⟩
  · exact absurd rfl hv0
  have ha : isSafeChar a = true := hv a (by simp)
  have hdq : dropOptQuote ((a :: v') ++ w) = (a :: v') ++ w :=
    dropOptQuote_cons_not (safe_not_quote ha)
  have htw : ((a :: v') ++ w).takeWhile isSafeChar = a :: v' :=
    takeWhile_append_not hv (fun c w' hc => (hw c w' hc).1)
  have hdw : ((a :: v') ++ w).dropWhile isSafeChar = w :=
    dropWhile_append_not hv (fun c w' hc => (hw c w' hc).1)
  have hdq2 : dropOptQuote w = w := by
    cases w with
    | nil => rfl
    | cons c w' => exact dropOptQuote_cons_not (hw c w' rfl).2
  simp only [matchP2]
  rw [hdq, htw, hdw, hdq2]
  simp

/-- Pass 2 on a double-quoted nonempty all-safe value: the match reproduces
the value verbatim and continues right after the closing quote. -/
theorem matchP2_quoted_value {s r : List Char} (hs0 : s ≠ [])
    (hs : ∀ c ∈ s, isSafeChar c = true) :
    matchP2 (':' :: ' ' :: ('"' :: s ++ '"' :: r)) =
      some (':' :: ' ' :: '"' :: s ++ ['"'], r) := by
  have hdq : dropOptQuote ('"' :: s ++ '"' :: r) = s ++ '"' :: r := by
    simp [dropOptQuote, isQuoteChar]
  have htw : (s ++ '"' :: r).takeWhile isSafeChar = s :=
    takeWhile_append_not hs (by intro c w' hc; injection hc with h1 h2; subst h1; decide)
  have hdw : (s ++ '"' :: r).dropWhile isSafeChar = '"' :: r :=
    dropWhile_append_not hs (by intro c w' hc; injection hc with h1 h2; subst h1; decide)
  have hdq2 : dropOptQuote ('"' :: r) = r := by simp [dropOptQuote, isQuoteChar]
  simp only [matchP2]
  rw [hdq, htw, hdw, hdq2]
  simp [hs0]

/-- Decode-then-encode composite on the timestamp field (claim C1):
unmarshal the JSON string `s`, then marshal the stored value. -/
def snsTimestampRoundtrip (s : String) : Option String :=
  match snsTimestampUnmarshal (Json.str s) with
  | .ok ms => some (snsTimestampMarshal ms)
  | _ => none

/-! ## Flat strictly-quoted objects (claim C8)

Claim C8 quantifies over inputs "already containing strict JSON quoting".
The program's input family (per the spec) is a flat sequence of
`key: value` pairs; strict quoting means double-quoted keys, double-quoted
string values and bare numeric literals.  `FlatObj` renders exactly such
texts: `{"k1": v1, "k2": v2, ...}` with identifier keys and values that
are either quoted safe-class strings or numeric literals. -/

/-- A strictly-quoted flat value: a double-quoted string of safe-class
characters, or a bare numeric literal. -/
inductive Val where
  | vstr : List Char → Val
  | vnum : List Char → Val
deriving DecidableEq, Repr

/-- A flat object: a list of key/value fields. -/
def FlatObj := List (List Char × Val)

/-- Well-formedness of a value: nonempty, and within the respective
character class. -/
def wfVal : Val → Bool
  | .vstr s => !s.isEmpty && s.all isSafeChar
  | .vnum d => !d.isEmpty && d.all isNumChar

def wfField (f : List Char × Val) : Bool :=
  !f.1.isEmpty && f.1.all isIdentChar && wfVal f.2

/-- Well-formedness of a flat object. -/
def wf (o : FlatObj) : Bool := o.all wfField

/-- Is the value a (quoted) string? -/
def isStr : Val → Bool
  | .vstr _ => true
  | .vnum _ => false

def allStr (o : FlatObj) : Bool := o.all (fun f => isStr f.2)

def renderVal : Val → List Char
  | .vstr s => '"' :: s ++ ['"']
  | .vnum d => d

def renderField (f : List Char × Val) : List Char :=
  '"' :: f.1 ++ '"' :: ':' :: ' ' :: renderVal f.2

def renderFields : FlatObj → List Char
  | [] => []
  | [f] => renderField f
  | f :: g :: rest => renderField f ++ ',' :: ' ' :: renderFields (g :: rest)

/-- The strict-JSON text of a flat object. -/
def render (o : FlatObj) : List Char := '{' :: renderFields o ++ ['}']

def renderStr (o : FlatObj) : String := ⟨render o⟩

/-- Effect of pass 2 on a value: numeric literals end up double-quoted. -/
def valToStr : Val → Val
  | .vnum d => .vstr d
  | v => v

def numToStr (o : FlatObj) : FlatObj := o.map (fun f => (f.1, valToStr f.2))

/-- Effect of pass 3 on a (quoted) value followed by a comma: an all-numeric
quoted string is unquoted. -/
def unquoteNum : Val → Val
  | .vstr s => if !s.isEmpty && s.all isNumChar then .vnum s else .vstr s
  | v => v

/-- Effect of pass 3 on the fields: every field except the last (which is
followed by `}` rather than the `,` the pattern requires) gets its value
unquoted when all-numeric. -/
def t3 : FlatObj → FlatObj
  | [] => []
  | [f] => [f]
  | f :: g :: rest => (f.1, unquoteNum f.2) :: t3 (g :: rest)

/-- The normal form a flat object's text reaches after one normalization. -/
def normObj (o : FlatObj) : FlatObj := t3 (numToStr o)

theorem normObj_nil : normObj [] = [] := rfl

theorem normObj_single (f : List Char × Val) :
    normObj [f] = [(f.1, valToStr f.2)] := rfl

theorem normObj_cons2 (f g : List Char × Val) (rest : FlatObj) :
    normObj (f :: g :: rest) = (f.1, unquoteNum (valToStr f.2)) :: normObj (g :: rest) := rfl

theorem val_norm_idem (v : Val) :
    unquoteNum (valToStr (unquoteNum (valToStr v))) = unquoteNum (valToStr v) := by
  cases v with
  | vstr s =>
    by_cases h : (!s.isEmpty && s.all isNumChar) = true <;>
      simp [valToStr, unquoteNum, h]
  | vnum d =>
    by_cases h : (!d.isEmpty && d.all isNumChar) = true <;>
      simp [valToStr, unquoteNum, h]

theorem valToStr_unquote_toStr (v : Val) :
    valToStr (unquoteNum (valToStr v)) = valToStr v := by
  cases v with
  | vstr s =>
    by_cases h : (!s.isEmpty && s.all isNumChar) = true <;>
      simp [valToStr, unquoteNum, h]
  | vnum d =>
    by_cases h : (!d.isEmpty && d.all isNumChar) = true <;>
      simp [valToStr, unquoteNum, h]

theorem valToStr_idem (v : Val) : valToStr (valToStr v) = valToStr v := by
  cases v <;> rfl

theorem normObj_cons_exists (g : List Char × Val) (rest : FlatObj) :
    ∃ y L, normObj (g :: rest) = y :: L := by
  cases rest with
  | nil => exact ⟨_, _, rfl⟩
  | cons h t => exact ⟨_, _, rfl⟩

theorem normObj_idem : ∀ o : FlatObj, normObj (normObj o) = normObj o := by
  intro o
  induction o with
  | nil => rfl
  | cons f o ih =>
    cases o with
    | nil => simp [normObj_single, valToStr_idem]
    | cons g rest =>
      obtain ⟨y, L, hL⟩ := normObj_cons_exists g rest
      rw [normObj_cons2, hL, normObj_cons2, ← hL, ih]
      simp [val_norm_idem]

theorem wfVal_valToStr {v : Val} (h : wfVal v = true) : wfVal (valToStr v) = true := by
  cases v with
  | vstr s => simpa [valToStr] using h
  | vnum d =>
    simp [valToStr, wfVal] at h ⊢
    exact ⟨h.1, fun c hc => num_is_safe (h.2 c hc)⟩

theorem wfVal_unquoteNum {v : Val} (h : wfVal v = true) : wfVal (unquoteNum v) = true := by
  cases v with
  | vnum d => simpa [unquoteNum] using h
  | vstr s =>
    by_cases hc : (!s.isEmpty && s.all isNumChar) = true
    · simp [unquoteNum, hc, wfVal]
    · simpa [unquoteNum, hc] using h

theorem wf_numToStr {o : FlatObj} (h : wf o = true) : wf (numToStr o) = true := by
  induction o with
  | nil => rfl
  | cons f o ih =>
    simp only [wf, numToStr, List.map_cons, List.all_cons, Bool.and_eq_true] at h ⊢
    refine ⟨?_, ih h.2⟩
    simp only [wfField, Bool.and_eq_true] at h ⊢
    exact ⟨h.1.1, wfVal_valToStr h.1.2⟩

theorem wf_t3 : ∀ o : FlatObj, wf o = true → wf (t3 o) = true := by
  intro o
  induction o with
  | nil => intro h; exact h
  | cons f o ih =>
    cases o with
    | nil => intro h; exact h
    | cons g rest =>
      intro h
      rw [show wf (f :: g :: rest) = (wfField f && wf (g :: rest)) from rfl,
        Bool.and_eq_true] at h
      have h2 := ih h.2
      have h3 := h.1
      rw [show wfField f = (!f.1.isEmpty && f.1.all isIdentChar && wfVal f.2) from rfl,
        Bool.and_eq_true] at h3
      show (wfField (f.1, unquoteNum f.2) && wf (t3 (g :: rest))) = true
      rw [Bool.and_eq_true]
      refine ⟨?_, h2⟩
      rw [show wfField (f.1, unquoteNum f.2) =
          (!f.1.isEmpty && f.1.all isIdentChar && wfVal (unquoteNum f.2)) from rfl,
        Bool.and_eq_true]
      exact ⟨h3.1, wfVal_unquoteNum h3.2⟩

theorem wf_normObj {o : FlatObj} (h : wf o = true) : wf (normObj o) = true :=
  wf_t3 _ (wf_numToStr h)

theorem allStr_numToStr (o : FlatObj) : allStr (numToStr o) = true := by
  induction o with
  | nil => rfl
  | cons f o ih =>
    simp only [allStr, numToStr, List.map_cons, List.all_cons, Bool.and_eq_true]
    refine ⟨?_, ih⟩
    cases f.2 <;> rfl

/-! ### Pass 2 over a rendered flat object -/

theorem ident_ne_colon {c : Char} (h : isIdentChar c = true) : c ≠ ':' := by
  intro heq
  subst heq
  exact absurd h (by decide)

theorem matchP2_none_not_colon {c : Char} (l : List Char) (h : c ≠ ':') :
    matchP2 (c :: l) = none := by
  cases l <;> simp [matchP2, h]

theorem scan2_skip {zs w : List Char} (h : ∀ c ∈ zs, c ≠ ':') :
    scan2 (zs ++ w) = zs ++ scan2 w := by
  induction zs with
  | nil => rfl
  | cons a l ih =>
    rw [List.cons_append, scan2_cons_none (matchP2_none_not_colon _ (h a (by simp))),
      ih (fun c hc => h c (by simp [hc]))]
    simp

theorem scan2_brace : scan2 ['}'] = ['}'] := by
  rw [scan2_cons_none (matchP2_none_not_colon _ (by decide))]
  rw [scan2_nil]

/-- Pass 2 over one rendered field: the key is untouched, the value comes
out double-quoted, scanning continues on `w`. -/
theorem scan2_field (k : List Char) (v : Val) (w : List Char)
    (hk : ∀ c ∈ k, isIdentChar c = true) (hv : wfVal v = true)
    (hw : w.head? = some ',' ∨ w.head? = some '}') :
    scan2 (renderField (k, v) ++ w) = renderField (k, valToStr v) ++ scan2 w := by
  have hwcs : ∀ c w', w = c :: w' → isSafeChar c = false ∧ isQuoteChar c = false := by
    intro c w' hcw
    subst hcw
    simp at hw
    rcases hw with hw | hw <;> rw [hw] <;> exact ⟨by decide, by decide⟩
  have hskip : ∀ c ∈ '"' :: k ++ ['"'], c ≠ ':' := by
    intro c hc
    simp at hc
    rcases hc with hc | hc | hc
    · subst hc; decide
    · exact ident_ne_colon (hk c hc)
    · subst hc; decide
  cases v with
  | vstr s =>
    obtain ⟨hs0', hsafe'⟩ : s.isEmpty = false ∧ s.all isSafeChar = true := by
      simpa [wfVal, Bool.and_eq_true] using hv
    have hs0 : s ≠ [] := by
      intro hnil
      rw [hnil] at hs0'
      simp at hs0'
    have hsafe : ∀ c ∈ s, isSafeChar c = true := List.all_eq_true.mp hsafe'
    have hm := matchP2_quoted_value (s := s) (r := w) hs0 hsafe
    calc scan2 (renderField (k, .vstr s) ++ w)
        = scan2 (('"' :: k ++ ['"']) ++ ':' :: ' ' :: ('"' :: s ++ '"' :: w)) := by
          simp [renderField, renderVal]
      _ = ('"' :: k ++ ['"']) ++ scan2 (':' :: ' ' :: ('"' :: s ++ '"' :: w)) :=
          scan2_skip hskip
      _ = ('"' :: k ++ ['"']) ++ ((':' :: ' ' :: '"' :: s ++ ['"']) ++ scan2 w) := by
          rw [scan2_cons_some hm]
      _ = renderField (k, valToStr (.vstr s)) ++ scan2 w := by
          simp [renderField, renderVal, valToStr]
  | vnum d =>
    obtain ⟨hd0', hnum'⟩ : d.isEmpty = false ∧ d.all isNumChar = true := by
      simpa [wfVal, Bool.and_eq_true] using hv
    have hd0 : d ≠ [] := by
      intro hnil
      rw [hnil] at hd0'
      simp at hd0'
    have hsafe : ∀ c ∈ d, isSafeChar c = true :=
      fun c hc => num_is_safe (List.all_eq_true.mp hnum' c hc)
    have hm := matchP2_bare_value (v := d) (w := w) hd0 hsafe hwcs
    calc scan2 (renderField (k, .vnum d) ++ w)
        = scan2 (('"' :: k ++ ['"']) ++ ':' :: ' ' :: (d ++ w)) := by
          simp [renderField, renderVal]
      _ = ('"' :: k ++ ['"']) ++ scan2 (':' :: ' ' :: (d ++ w)) := scan2_skip hskip
      _ = ('"' :: k ++ ['"']) ++ ((':' :: ' ' :: '"' :: d ++ ['"']) ++ scan2 w) := by
          rw [scan2_cons_some hm]
      _ = renderField (k, valToStr (.vnum d)) ++ scan2 w := by
          simp [renderField, renderVal, valToStr]

theorem wfField_parts {f : List Char × Val} (h : wfField f = true) :
    f.1 ≠ [] ∧ (∀ c ∈ f.1, isIdentChar c = true) ∧ wfVal f.2 = true := by
  rw [show wfField f = (!f.1.isEmpty && f.1.all isIdentChar && wfVal f.2) from rfl,
    Bool.and_eq_true, Bool.and_eq_true] at h
  refine ⟨?_, List.all_eq_true.mp h.1.2, h.2⟩
  intro hnil
  rw [hnil] at h
  simp at h

theorem wf_parts {f : List Char × Val} {o : FlatObj} (h : wf (f :: o) = true) :
    wfField f = true ∧ wf o = true := by
  rw [show wf (f :: o) = (wfField f && wf o) from rfl, Bool.and_eq_true] at h
  exact h

/-- Pass 2 over all rendered fields followed by the closing brace. -/
theorem scan2_fields : ∀ o : FlatObj, wf o = true →
    scan2 (renderFields o ++ ['}']) = renderFields (numToStr o) ++ ['}'] := by
  intro o
  induction o with
  | nil =>
    intro h
    exact scan2_brace
  | cons f o ih =>
    cases o with
    | nil =>
      intro h
      obtain ⟨hf, -⟩ := wf_parts h
      obtain ⟨hk0, hk, hv⟩ := wfField_parts hf
      show scan2 (renderField (f.1, f.2) ++ ['}']) = renderField ((f.1, valToStr f.2).1, (f.1, valToStr f.2).2) ++ ['}']
      rw [scan2_field f.1 f.2 ['}'] hk hv (Or.inr rfl), scan2_brace]
    | cons g rest =>
      intro h
      obtain ⟨hf, ho⟩ := wf_parts h
      obtain ⟨hk0, hk, hv⟩ := wfField_parts hf
      have step : scan2 (renderField (f.1, f.2) ++ (',' :: ' ' :: (renderFields (g :: rest) ++ ['}']))) =
          renderField (f.1, valToStr f.2) ++
            (',' :: ' ' :: (renderFields (numToStr (g :: rest)) ++ ['}'])) := by
        rw [scan2_field f.1 f.2 (',' :: ' ' :: (renderFields (g :: rest) ++ ['}'])) hk hv
          (Or.inl rfl)]
        rw [scan2_cons_none (matchP2_none_not_colon _ (by decide)),
          scan2_cons_none (matchP2_none_not_colon _ (by decide)), ih ho]
      calc scan2 (renderFields (f :: g :: rest) ++ ['}'])
          = scan2 (renderField (f.1, f.2) ++ (',' :: ' ' :: (renderFields (g :: rest) ++ ['}']))) := by
            simp [renderFields]
        _ = renderField (f.1, valToStr f.2) ++
              (',' :: ' ' :: (renderFields (numToStr (g :: rest)) ++ ['}'])) := step
        _ = renderFields (numToStr (f :: g :: rest)) ++ ['}'] := by
            simp [renderFields, numToStr]

/-- Pass 2 over a rendered strictly-quoted flat object quotes exactly the
numeric values. -/
theorem scan2_render (o : FlatObj) (h : wf o = true) :
    scan2 (render o) = render (numToStr o) := by
  show scan2 ('{' :: (renderFields o ++ ['}'])) = '{' :: (renderFields (numToStr o) ++ ['}'])
  rw [scan2_cons_none (matchP2_none_not_colon _ (by decide)), scan2_fields o h]

/-! ### Pass 3 over a rendered flat object (all values quoted) -/

theorem safe_ne_space {c : Char} (h : isSafeChar c = true) : c ≠ ' ' := by
  intro heq
  subst heq
  exact absurd h (by decide)

theorem takeWhile_all {p : Char → Bool} {l : List Char} (h : ∀ c ∈ l, p c = true) :
    l.takeWhile p = l := by
  have h2 := takeWhile_append_not (w := ([] : List Char)) h (fun c w' hc => by simp at hc)
  simpa using h2

theorem dropWhile_head_not {p : Char → Bool} :
    ∀ {l : List Char} {c : Char} {rest : List Char}, l.dropWhile p = c :: rest → p c = false := by
  intro l
  induction l with
  | nil => intro c rest h; simp at h
  | cons a t ih =>
    intro c rest h
    by_cases hp : p a
    · rw [List.dropWhile_cons, if_pos hp] at h
      exact ih h
    · rw [List.dropWhile_cons, if_neg hp] at h
      injection h with h1 _
      subst h1
      simpa using hp

theorem matchP3_none_not_colon {c : Char} (l : List Char) (h : c ≠ ':') :
    matchP3 (c :: l) = none := by
  cases l <;> simp [matchP3, h]

theorem matchP3_none_not_space {x y : Char} (l : List Char) (h : y ≠ ' ') :
    matchP3 (x :: y :: l) = none := by
  simp [matchP3, h]

theorem scan3_brace : scan3 ['}'] = ['}'] := by
  rw [scan3_cons_none (matchP3_none_not_colon _ (by decide))]
  rw [scan3_nil]

theorem scan3_skip {zs w : List Char} (h : ∀ c ∈ zs, c ≠ ':') :
    scan3 (zs ++ w) = zs ++ scan3 w := by
  induction zs with
  | nil => rfl
  | cons a l ih =>
    rw [List.cons_append, scan3_cons_none (matchP3_none_not_colon _ (h a (by simp))),
      ih (fun c hc => h c (by simp [hc]))]
    simp

/-- Pass 3 steps through a quoted safe-character string body without
matching: the string contains no space, so no `': '` occurs in it. -/
theorem scan3_strbody {l w : List Char} (hl : ∀ c ∈ l, isSafeChar c = true)
    (hw : w.head? = some ',' ∨ w.head? = some '}') :
    scan3 (l ++ '"' :: w) = l ++ '"' :: scan3 w := by
  induction l with
  | nil =>
    rw [List.nil_append, scan3_cons_none (matchP3_none_not_colon _ (by decide))]
    rfl
  | cons a l ih =>
    have hmn : matchP3 (a :: (l ++ '"' :: w)) = none := by
      by_cases hac : a = ':'
      · subst hac
        cases l with
        | nil => exact matchP3_none_not_space _ (by decide)
        | cons b l' =>
          exact matchP3_none_not_space _ (safe_ne_space (hl b (by simp)))
      · exact matchP3_none_not_colon _ hac
    rw [List.cons_append, scan3_cons_none hmn, ih (fun c hc => hl c (by simp [hc]))]
    simp

/-- Pass 3 at a key colon whose quoted value is all-numeric and followed by
a comma: the quotes are stripped. -/
theorem matchP3_num_comma {s u : List Char} (hs0 : s ≠ [])
    (hnum : ∀ c ∈ s, isNumChar c = true) :
    matchP3 (':' :: ' ' :: ('"' :: s ++ '"' :: ',' :: u)) =
      some (':' :: ' ' :: s ++ [','], u) := by
  have hdq : dropOptQuote ('"' :: s ++ '"' :: ',' :: u) = s ++ '"' :: ',' :: u := by
    simp [dropOptQuote, isQuoteChar]
  have htw : (s ++ '"' :: ',' :: u).takeWhile isNumChar = s :=
    takeWhile_append_not hnum (by intro c v hc; injection hc with h1 _; subst h1; decide)
  have hdw : (s ++ '"' :: ',' :: u).dropWhile isNumChar = '"' :: ',' :: u :=
    dropWhile_append_not hnum (by intro c v hc; injection hc with h1 _; subst h1; decide)
  simp only [matchP3]
  rw [hdq, htw, hdw]
  simp [dropOptQuote, isQuoteChar, hs0]

/-- Pass 3 at a key colon whose quoted value is all-numeric but followed by
the closing brace: no comma, no match. -/
theorem matchP3_num_brace {s w' : List Char} (hnum : ∀ c ∈ s, isNumChar c = true) :
    matchP3 (':' :: ' ' :: ('"' :: s ++ '"' :: '}' :: w')) = none := by
  have hdq : dropOptQuote ('"' :: s ++ '"' :: '}' :: w') = s ++ '"' :: '}' :: w' := by
    simp [dropOptQuote, isQuoteChar]
  have htw : (s ++ '"' :: '}' :: w').takeWhile isNumChar = s :=
    takeWhile_append_not hnum (by intro c u hc; injection hc with h1 _; subst h1; decide)
  have hdw : (s ++ '"' :: '}' :: w').dropWhile isNumChar = '"' :: '}' :: w' :=
    dropWhile_append_not hnum (by intro c u hc; injection hc with h1 _; subst h1; decide)
  simp only [matchP3]
  rw [hdq, htw, hdw]
  simp [dropOptQuote, isQuoteChar]

/-- Pass 3 at a key colon whose quoted value contains a non-numeric
character: the numeric run stops inside the value, the next character is
neither quote nor comma, no match. -/
theorem matchP3_nonnum {s w : List Char} (hsafe : ∀ c ∈ s, isSafeChar c = true)
    (hnn : ¬ ∀ c ∈ s, isNumChar c = true) :
    matchP3 (':' :: ' ' :: ('"' :: s ++ '"' :: w)) = none := by
  have hdq : dropOptQuote ('"' :: s ++ '"' :: w) = s ++ '"' :: w := by
    simp [dropOptQuote, isQuoteChar]
  have he : s.dropWhile isNumChar ≠ [] := by
    intro h0
    exact hnn (fun c hc => by
      by_contra hn
      have hmem := List.dropWhile_eq_nil_iff.mp h0
      exact hn (hmem c hc))
  obtain ⟨f, e', hfe⟩ := List.exists_cons_of_ne_nil he
  have hf_mem : f ∈ s :=
    (List.dropWhile_sublist _).subset (by rw [hfe]; exact List.mem_cons_self f e')
  have hf_safe := hsafe f hf_mem
  have hdw : (s ++ '"' :: w).dropWhile isNumChar = f :: (e' ++ '"' :: w) := by
    rw [List.dropWhile_append, hfe]
    simp
  have hfc : f ≠ ',' := by
    intro heq
    subst heq
    exact absurd hf_safe (by decide)
  simp only [matchP3]
  rw [hdq, hdw, dropOptQuote_cons_not (safe_not_quote hf_safe)]
  simp [hfc]

/-- Pass 3 over the last rendered field (value quoted): unchanged. -/
theorem scan3_field_last {k s : List Char}
    (hk : ∀ c ∈ k, isIdentChar c = true)
    (hsafe : ∀ c ∈ s, isSafeChar c = true) :
    scan3 (renderField (k, .vstr s) ++ ['}']) = renderField (k, .vstr s) ++ ['}'] := by
  have hskip : ∀ c ∈ '"' :: k ++ ['"'], c ≠ ':' := by
    intro c hc
    simp at hc
    rcases hc with hc | hc | hc
    · subst hc; decide
    · exact ident_ne_colon (hk c hc)
    · subst hc; decide
  have hcolon : matchP3 (':' :: ' ' :: ('"' :: s ++ '"' :: '}' :: [])) = none := by
    by_cases hnum : ∀ c ∈ s, isNumChar c = true
    · exact matchP3_num_brace hnum
    · exact matchP3_nonnum hsafe hnum
  have hskip3 : ∀ c ∈ ('"' :: k ++ ['"']), c ≠ ':' := hskip
  calc scan3 (renderField (k, .vstr s) ++ ['}'])
      = scan3 (('"' :: k ++ ['"']) ++ ':' :: ' ' :: ('"' :: s ++ '"' :: '}' :: [])) := by
        simp [renderField, renderVal]
    _ = ('"' :: k ++ ['"']) ++ scan3 (':' :: ' ' :: ('"' :: s ++ '"' :: '}' :: [])) := by
        rw [scan3_skip hskip3]
    _ = ('"' :: k ++ ['"']) ++ ':' :: scan3 (' ' :: ('"' :: s ++ '"' :: '}' :: [])) := by
        rw [scan3_cons_none hcolon]
    _ = ('"' :: k ++ ['"']) ++ ':' :: ' ' :: scan3 ('"' :: (s ++ '"' :: '}' :: [])) := by
        rw [scan3_cons_none (matchP3_none_not_colon _ (by decide))]
        simp
    _ = ('"' :: k ++ ['"']) ++ ':' :: ' ' :: '"' :: scan3 (s ++ '"' :: '}' :: []) := by
        rw [scan3_cons_none (matchP3_none_not_colon _ (by decide))]
    _ = ('"' :: k ++ ['"']) ++ ':' :: ' ' :: '"' :: (s ++ '"' :: scan3 ('}' :: [])) := by
        rw [scan3_strbody (w := '}' :: []) hsafe (Or.inr rfl)]
    _ = renderField (k, .vstr s) ++ ['}'] := by
        rw [scan3_brace]
        simp [renderField, renderVal]

/-- Pass 3 over a non-last rendered field (value quoted, comma follows):
an all-numeric value is unquoted, any other value is unchanged. -/
theorem scan3_field_comma {k s : List Char} (rf : List Char)
    (hk : ∀ c ∈ k, isIdentChar c = true) (hs0 : s ≠ [])
    (hsafe : ∀ c ∈ s, isSafeChar c = true) :
    scan3 (renderField (k, .vstr s) ++ ',' :: ' ' :: rf) =
      renderField (k, unquoteNum (.vstr s)) ++ ',' :: ' ' :: scan3 rf := by
  have hskip : ∀ c ∈ '"' :: k ++ ['"'], c ≠ ':' := by
    intro c hc
    simp at hc
    rcases hc with hc | hc | hc
    · subst hc; decide
    · exact ident_ne_colon (hk c hc)
    · subst hc; decide
  by_cases hnum : ∀ c ∈ s, isNumChar c = true
  · have hnums : s.all isNumChar = true := List.all_eq_true.mpr hnum
    have hsne : s.isEmpty = false := by
      cases s with
      | nil => exact absurd rfl hs0
      | cons a t => rfl
    have huq : unquoteNum (.vstr s) = .vnum s := by
      simp [unquoteNum, hsne, hnums]
    have hm := matchP3_num_comma (u := ' ' :: rf) hs0 hnum
    calc scan3 (renderField (k, .vstr s) ++ ',' :: ' ' :: rf)
        = scan3 (('"' :: k ++ ['"']) ++ ':' :: ' ' :: ('"' :: s ++ '"' :: ',' :: ' ' :: rf)) := by
          simp [renderField, renderVal]
      _ = ('"' :: k ++ ['"']) ++ scan3 (':' :: ' ' :: ('"' :: s ++ '"' :: ',' :: ' ' :: rf)) := by
          rw [scan3_skip hskip]
      _ = ('"' :: k ++ ['"']) ++ ((':' :: ' ' :: s ++ [',']) ++ scan3 (' ' :: rf)) := by
          rw [scan3_cons_some hm]
      _ = ('"' :: k ++ ['"']) ++ ((':' :: ' ' :: s ++ [',']) ++ ' ' :: scan3 rf) := by
          rw [scan3_cons_none (matchP3_none_not_colon _ (by decide))]
      _ = renderField (k, unquoteNum (.vstr s)) ++ ',' :: ' ' :: scan3 rf := by
          rw [huq]
          simp [renderField, renderVal]
  · have huq : unquoteNum (.vstr s) = .vstr s := by
      by_cases hsne : s.isEmpty = true
      · simp [unquoteNum, hsne]
      · have hnums : s.all isNumChar = false := by
          cases ha : s.all isNumChar
          · rfl
          · exact absurd (List.all_eq_true.mp ha) hnum
        simp [unquoteNum, hnums]
    have hm : matchP3 (':' :: ' ' :: ('"' :: s ++ '"' :: ',' :: ' ' :: rf)) = none :=
      matchP3_nonnum hsafe hnum
    calc scan3 (renderField (k, .vstr s) ++ ',' :: ' ' :: rf)
        = scan3 (('"' :: k ++ ['"']) ++ ':' :: ' ' :: ('"' :: s ++ '"' :: ',' :: ' ' :: rf)) := by
          simp [renderField, renderVal]
      _ = ('"' :: k ++ ['"']) ++ scan3 (':' :: ' ' :: ('"' :: s ++ '"' :: ',' :: ' ' :: rf)) := by
          rw [scan3_skip hskip]
      _ = ('"' :: k ++ ['"']) ++ ':' :: ' ' :: scan3 ('"' :: (s ++ '"' :: ',' :: ' ' :: rf)) := by
          rw [scan3_cons_none hm, scan3_cons_none (matchP3_none_not_colon _ (by decide))]
          simp
      _ = ('"' :: k ++ ['"']) ++ ':' :: ' ' :: '"' :: (s ++ '"' :: scan3 (',' :: ' ' :: rf)) := by
          rw [scan3_cons_none (matchP3_none_not_colon _ (by decide)),
            scan3_strbody (w := ',' :: ' ' :: rf) hsafe (Or.inl rfl)]
      _ = renderField (k, unquoteNum (.vstr s)) ++ ',' :: ' ' :: scan3 rf := by
          rw [scan3_cons_none (matchP3_none_not_colon _ (by decide)),
            scan3_cons_none (matchP3_none_not_colon _ (by decide)), huq]
          simp [renderField, renderVal]

/-- Pass 3 over all rendered fields (all values quoted strings). -/
theorem scan3_fields : ∀ o : FlatObj, wf o = true → allStr o = true →
    scan3 (renderFields o ++ ['}']) = renderFields (t3 o) ++ ['}'] := by
  intro o
  induction o with
  | nil =>
    intro h ha
    exact scan3_brace
  | cons f o ih =>
    cases o with
    | nil =>
      intro h ha
      obtain ⟨hf, -⟩ := wf_parts h
      obtain ⟨hk0, hk, hv⟩ := wfField_parts hf
      obtain ⟨s, hs⟩ : ∃ s, f.2 = .vstr s := by
        cases hv2 : f.2 with
        | vstr s => exact ⟨s, rfl⟩
        | vnum d =>
          rw [show allStr [f] = (isStr f.2 && true) from rfl, hv2] at ha
          simp [isStr] at ha
      have hsafe : ∀ c ∈ s, isSafeChar c = true := by
        rw [hs] at hv
        simp [wfVal] at hv
        exact hv.2
      show scan3 (renderField (f.1, f.2) ++ ['}']) = renderField (f.1, f.2) ++ ['}']
      rw [show f.2 = Val.vstr s from hs]
      exact scan3_field_last hk hsafe
    | cons g rest =>
      intro h ha
      obtain ⟨hf, ho⟩ := wf_parts h
      obtain ⟨hk0, hk, hv⟩ := wfField_parts hf
      have ha2 : allStr (g :: rest) = true := by
        rw [show allStr (f :: g :: rest) = (isStr f.2 && allStr (g :: rest)) from rfl,
          Bool.and_eq_true] at ha
        exact ha.2
      obtain ⟨s, hs⟩ : ∃ s, f.2 = .vstr s := by
        cases hv2 : f.2 with
        | vstr s => exact ⟨s, rfl⟩
        | vnum d =>
          rw [show allStr (f :: g :: rest) = (isStr f.2 && allStr (g :: rest)) from rfl,
            hv2] at ha
          simp [isStr] at ha
      have hs0 : s ≠ [] := by
        rw [hs] at hv
        simp [wfVal] at hv
        intro hnil
        rw [hnil] at hv
        simp at hv
      have hsafe : ∀ c ∈ s, isSafeChar c = true := by
        rw [hs] at hv
        simp [wfVal] at hv
        exact hv.2
      calc scan3 (renderFields (f :: g :: rest) ++ ['}'])
          = scan3 (renderField (f.1, f.2) ++ ',' :: ' ' :: (renderFields (g :: rest) ++ ['}'])) := by
            simp [renderFields]
        _ = renderField (f.1, unquoteNum f.2) ++
              ',' :: ' ' :: scan3 (renderFields (g :: rest) ++ ['}']) := by
            rw [show f.2 = Val.vstr s from hs]
            exact scan3_field_comma _ hk hs0 hsafe
        _ = renderField (f.1, unquoteNum f.2) ++
              ',' :: ' ' :: (renderFields (t3 (g :: rest)) ++ ['}']) := by
            rw [ih ho ha2]
        _ = renderFields (t3 (f :: g :: rest)) ++ ['}'] := by
            obtain ⟨y, L, hyl⟩ : ∃ y L, t3 (g :: rest) = y :: L := by
              cases rest with
              | nil => exact ⟨_, _, rfl⟩
              | cons u t => exact ⟨_, _, rfl⟩
            rw [show t3 (f :: g :: rest) = (f.1, unquoteNum f.2) :: t3 (g :: rest) from rfl, hyl]
            simp [renderFields]

/-- Pass 3 over a rendered all-string flat object unquotes exactly the
non-trailing all-numeric values. -/
theorem scan3_render (o : FlatObj) (h : wf o = true) (ha : allStr o = true) :
    scan3 (render o) = render (t3 o) := by
  show scan3 ('{' :: (renderFields o ++ ['}'])) = '{' :: (renderFields (t3 o) ++ ['}'])
  rw [scan3_cons_none (matchP3_none_not_colon _ (by decide)), scan3_fields o h ha]

/-! ### Pass 1 over a rendered flat object

Pass 1 only matches at the rendered keys — where it rewrites `"key": ` to
itself — and nowhere inside values or separators. -/

theorem safe_not_ws {c : Char} (h : isSafeChar c = true) : isWSChar c = false := by
  cases hw : isWSChar c
  · rfl
  · have hc : (((c = ' ' ∨ c = '\t') ∨ c = '\n') ∨ c = '\x0d') ∨ c = '\x0c' := by
      simpa [isWSChar] using hw
    rcases hc with (((h1 | h1) | h1) | h1) | h1 <;> subst h1 <;> exact absurd h (by decide)

theorem num_not_quote {c : Char} (h : isNumChar c = true) : isQuoteChar c = false :=
  safe_not_quote (num_is_safe h)

theorem num_ne_colon {c : Char} (h : isNumChar c = true) : c ≠ ':' := by
  intro heq
  subst heq
  exact absurd h (by decide)

theorem takeWhile_head_false {p : Char → Bool} {a : Char} {l : List Char} (h : p a = false) :
    (a :: l).takeWhile p = [] := by
  simp [List.takeWhile_cons, h]

/-- Generic head fact for a separator-headed continuation. -/
theorem sep_head_not {w : List Char} (hw : w.head? = some ',' ∨ w.head? = some '}')
    (p : Char → Bool) (h1 : p ',' = false) (h2 : p '}' = false) :
    ∀ u u', w = u :: u' → p u = false := by
  intro u u' hu
  subst hu
  simp at hw
  rcases hw with hw | hw <;> rw [hw] <;> assumption

theorem sep_ne_nil {w : List Char} (hw : w.head? = some ',' ∨ w.head? = some '}') :
    w ≠ [] := by
  intro hnil
  subst hnil
  rcases hw with hw | hw <;> simp at hw

/-- If the identifier-group candidate is empty, pass 1 cannot match. -/
theorem matchP1_none_empty_take {xs : List Char}
    (h : (dropOptQuote xs).takeWhile isIdentChar = []) : matchP1 xs = none := by
  simp only [matchP1, h]
  cases hdq : dropOptQuote ((dropOptQuote xs).dropWhile isIdentChar) with
  | nil => rfl
  | cons a t =>
    cases t with
    | nil => rfl
    | cons b t' => simp

theorem matchP1_none_head {c : Char} (l : List Char) (h1 : isQuoteChar c = false)
    (h2 : isIdentChar c = false) : matchP1 (c :: l) = none :=
  matchP1_none_empty_take (by rw [dropOptQuote_cons_not h1]; exact takeWhile_head_false h2)

theorem sep_takeWhile_empty {w : List Char}
    (hw : w.head? = some ',' ∨ w.head? = some '}') :
    w.takeWhile isIdentChar = [] := by
  cases w with
  | nil => rfl
  | cons a w' =>
    exact takeWhile_head_false (sep_head_not hw isIdentChar (by decide) (by decide) a w' rfl)

theorem sep_dropOptQuote {w : List Char}
    (hw : w.head? = some ',' ∨ w.head? = some '}') : dropOptQuote w = w := by
  cases w with
  | nil => rfl
  | cons a w' =>
    exact dropOptQuote_cons_not (sep_head_not hw isQuoteChar (by decide) (by decide) a w' rfl)

/-- No pass-1 match at any position of an all-safe run that is terminated
by a closing double quote and then a separator. -/
theorem matchP1_none_aux {xs l w : List Char} (hx : dropOptQuote xs = l ++ '"' :: w)
    (hl : ∀ c ∈ l, isSafeChar c = true) (hw : w.head? = some ',' ∨ w.head? = some '}') :
    matchP1 xs = none := by
  by_cases hall : ∀ c ∈ l, isIdentChar c = true
  · have hdw : (l ++ '"' :: w).dropWhile isIdentChar = '"' :: w :=
      dropWhile_append_not hall (by intro c u hc; injection hc with h1 _; subst h1; decide)
    have htw : (l ++ '"' :: w).takeWhile isIdentChar = l :=
      takeWhile_append_not hall (by intro c u hc; injection hc with h1 _; subst h1; decide)
    simp only [matchP1, hx, hdw, htw]
    rw [show dropOptQuote ('"' :: w) = w by simp [dropOptQuote, isQuoteChar]]
    cases w with
    | nil => rfl
    | cons a w' =>
      have ha : a ≠ ':' := by
        simp at hw
        rcases hw with hw | hw <;> rw [hw] <;> decide
      cases w' with
      | nil => rfl
      | cons b w'' => simp [ha]
  · have he : l.dropWhile isIdentChar ≠ [] := by
      intro h0
      exact hall (fun c hc => List.dropWhile_eq_nil_iff.mp h0 c hc)
    obtain ⟨f, e', hfe⟩ := List.exists_cons_of_ne_nil he
    have hf_mem : f ∈ l :=
      (List.dropWhile_sublist _).subset (by rw [hfe]; exact List.mem_cons_self f e')
    have hf_safe := hl f hf_mem
    have hdw : (l ++ '"' :: w).dropWhile isIdentChar = f :: (e' ++ '"' :: w) := by
      rw [List.dropWhile_append, hfe]
      simp
    simp only [matchP1, hx, hdw]
    rw [dropOptQuote_cons_not (safe_not_quote hf_safe)]
    cases e' with
    | nil => simp [show isWSChar '"' = false from by decide]
    | cons b e'' =>
      have hb_mem : b ∈ l := (List.dropWhile_sublist _).subset (by rw [hfe]; simp)
      have hb_safe := hl b hb_mem
      simp [safe_not_ws hb_safe]

/-- No pass-1 match at any position of a bare numeric run followed by a
separator. -/
theorem matchP1_none_numrun {d w : List Char} (hd : ∀ c ∈ d, isNumChar c = true)
    (hw : w.head? = some ',' ∨ w.head? = some '}') :
    matchP1 (d ++ w) = none := by
  cases d with
  | nil =>
    rw [List.nil_append]
    exact matchP1_none_empty_take (by rw [sep_dropOptQuote hw]; exact sep_takeWhile_empty hw)
  | cons c d' =>
    by_cases hc : isIdentChar c = true
    · have hcq : isQuoteChar c = false := num_not_quote (hd c (by simp))
      by_cases hall : ∀ x ∈ c :: d', isIdentChar x = true
      · have hdw : ((c :: d') ++ w).dropWhile isIdentChar = w :=
          dropWhile_append_not hall (sep_head_not hw isIdentChar (by decide) (by decide))
        have htw : ((c :: d') ++ w).takeWhile isIdentChar = c :: d' :=
          takeWhile_append_not hall (sep_head_not hw isIdentChar (by decide) (by decide))
        have hdq : dropOptQuote ((c :: d') ++ w) = (c :: d') ++ w := by
          rw [List.cons_append]
          exact dropOptQuote_cons_not hcq
        simp only [matchP1]
        rw [hdq, hdw, htw, sep_dropOptQuote hw]
        cases w with
        | nil => rfl
        | cons a w' =>
          have ha : a ≠ ':' := by
            simp at hw
            rcases hw with hw | hw <;> rw [hw] <;> decide
          cases w' with
          | nil => rfl
          | cons b w'' => simp [ha]
      · have he : (c :: d').dropWhile isIdentChar ≠ [] := by
          intro h0
          exact hall (fun x hx => List.dropWhile_eq_nil_iff.mp h0 x hx)
        obtain ⟨f, e', hfe⟩ := List.exists_cons_of_ne_nil he
        have hf_mem : f ∈ c :: d' :=
          (List.dropWhile_sublist _).subset (by rw [hfe]; exact List.mem_cons_self f e')
        have hf_num := hd f hf_mem
        have hdw : ((c :: d') ++ w).dropWhile isIdentChar = f :: (e' ++ w) := by
          rw [List.dropWhile_append, hfe]
          simp
        have hdq : dropOptQuote ((c :: d') ++ w) = (c :: d') ++ w := by
          rw [List.cons_append]
          exact dropOptQuote_cons_not hcq
        simp only [matchP1]
        rw [hdq, hdw, dropOptQuote_cons_not (num_not_quote hf_num)]
        have hfc : f ≠ ':' := num_ne_colon hf_num
        obtain ⟨a, w', haw⟩ := List.exists_cons_of_ne_nil (sep_ne_nil hw)
        cases e' with
        | nil =>
          rw [haw]
          simp [hfc]
        | cons b e'' => simp [hfc]
    · have hcq : isQuoteChar c = false := num_not_quote (hd c (by simp))
      have hcf : isIdentChar c = false := by
        cases hcx : isIdentChar c
        · rfl
        · exact absurd hcx hc
      exact matchP1_none_head _ hcq hcf

/-- Pass 1 at a rendered key: the match consumes `"key": ` and rewrites it
to itself. -/
theorem matchP1_key {k r : List Char} (hk0 : k ≠ [])
    (hk : ∀ c ∈ k, isIdentChar c = true) :
    matchP1 ('"' :: k ++ '"' :: ':' :: ' ' :: r) =
      some ('"' :: k ++ ['"', ':', ' '], r) := by
  have hdq : dropOptQuote ('"' :: k ++ '"' :: ':' :: ' ' :: r) =
      k ++ '"' :: ':' :: ' ' :: r := by
    simp [dropOptQuote, isQuoteChar]
  have htw : (k ++ '"' :: ':' :: ' ' :: r).takeWhile isIdentChar = k :=
    takeWhile_append_not hk (by intro c u hc; injection hc with h1 _; subst h1; decide)
  have hdw : (k ++ '"' :: ':' :: ' ' :: r).dropWhile isIdentChar =
      '"' :: ':' :: ' ' :: r :=
    dropWhile_append_not hk (by intro c u hc; injection hc with h1 _; subst h1; decide)
  have hke : k.isEmpty = false := by
    cases k with
    | nil => exact absurd rfl hk0
    | cons a t => rfl
  simp only [matchP1]
  rw [hdq, htw, hdw]
  simp [dropOptQuote, isQuoteChar, hke, isWSChar]

/-- Pass 1 steps through a bare numeric value without matching. -/
theorem scan1_numbody {d w : List Char} (hd : ∀ c ∈ d, isNumChar c = true)
    (hw : w.head? = some ',' ∨ w.head? = some '}') :
    scan1 (d ++ w) = d ++ scan1 w := by
  induction d with
  | nil => simp
  | cons c d' ih =>
    have hm : matchP1 (c :: (d' ++ w)) = none := by
      have := matchP1_none_numrun hd hw
      rwa [List.cons_append] at this
    rw [List.cons_append, scan1_cons_none hm, ih (fun x hx => hd x (by simp [hx]))]
    simp

/-- Pass 1 steps through a quoted safe string body without matching. -/
theorem scan1_strbody {l w : List Char} (hl : ∀ c ∈ l, isSafeChar c = true)
    (hw : w.head? = some ',' ∨ w.head? = some '}') :
    scan1 (l ++ '"' :: w) = l ++ '"' :: scan1 w := by
  induction l with
  | nil =>
    rw [List.nil_append]
    have hm : matchP1 ('"' :: w) = none :=
      matchP1_none_empty_take (by
        rw [show dropOptQuote ('"' :: w) = w by simp [dropOptQuote, isQuoteChar]]
        exact sep_takeWhile_empty hw)
    rw [scan1_cons_none hm]
    rfl
  | cons c l' ih =>
    have hcq : isQuoteChar c = false := safe_not_quote (hl c (by simp))
    have hm : matchP1 (c :: (l' ++ '"' :: w)) = none := by
      apply matchP1_none_aux (l := c :: l') (w := w)
      · rw [← List.cons_append]
        rw [show (c :: l') ++ '"' :: w = c :: (l' ++ '"' :: w) from List.cons_append c l' _]
        exact dropOptQuote_cons_not hcq
      · exact hl
      · exact hw
    rw [List.cons_append, scan1_cons_none hm, ih (fun x hx => hl x (by simp [hx]))]
    simp

/-- Pass 1 leaves a whole quoted safe value in place. -/
theorem scan1_strval {s w : List Char} (hsafe : ∀ c ∈ s, isSafeChar c = true)
    (hw : w.head? = some ',' ∨ w.head? = some '}') :
    scan1 ('"' :: s ++ '"' :: w) = '"' :: s ++ '"' :: scan1 w := by
  have hm : matchP1 ('"' :: (s ++ '"' :: w)) = none :=
    matchP1_none_aux (l := s) (w := w) (by simp [dropOptQuote, isQuoteChar]) hsafe hw
  rw [show ('"' :: s ++ '"' :: w : List Char) = '"' :: (s ++ '"' :: w) from rfl,
    scan1_cons_none hm, scan1_strbody hsafe hw]
  simp

/-- Pass 1 over one rendered field: the key match rewrites itself, the
value is untouched. -/
theorem scan1_field {k : List Char} {v : Val} (w : List Char) (hk0 : k ≠ [])
    (hk : ∀ c ∈ k, isIdentChar c = true) (hv : wfVal v = true)
    (hw : w.head? = some ',' ∨ w.head? = some '}') :
    scan1 (renderField (k, v) ++ w) = renderField (k, v) ++ scan1 w := by
  cases v with
  | vstr s =>
    obtain ⟨hs0', hsafe'⟩ : s.isEmpty = false ∧ s.all isSafeChar = true := by
      simpa [wfVal, Bool.and_eq_true] using hv
    have hsafe : ∀ c ∈ s, isSafeChar c = true := List.all_eq_true.mp hsafe'
    calc scan1 (renderField (k, .vstr s) ++ w)
        = scan1 ('"' :: k ++ '"' :: ':' :: ' ' :: ('"' :: s ++ '"' :: w)) := by
          simp [renderField, renderVal]
      _ = ('"' :: k ++ ['"', ':', ' ']) ++ scan1 ('"' :: s ++ '"' :: w) :=
          scan1_cons_some (matchP1_key hk0 hk)
      _ = ('"' :: k ++ ['"', ':', ' ']) ++ ('"' :: s ++ '"' :: scan1 w) := by
          rw [scan1_strval hsafe hw]
      _ = renderField (k, .vstr s) ++ scan1 w := by
          simp [renderField, renderVal]
  | vnum d =>
    obtain ⟨hd0', hnum'⟩ : d.isEmpty = false ∧ d.all isNumChar = true := by
      simpa [wfVal, Bool.and_eq_true] using hv
    have hnum : ∀ c ∈ d, isNumChar c = true := List.all_eq_true.mp hnum'
    calc scan1 (renderField (k, .vnum d) ++ w)
        = scan1 ('"' :: k ++ '"' :: ':' :: ' ' :: (d ++ w)) := by
          simp [renderField, renderVal]
      _ = ('"' :: k ++ ['"', ':', ' ']) ++ scan1 (d ++ w) :=
          scan1_cons_some (matchP1_key hk0 hk)
      _ = ('"' :: k ++ ['"', ':', ' ']) ++ (d ++ scan1 w) := by
          rw [scan1_numbody hnum hw]
      _ = renderField (k, .vnum d) ++ scan1 w := by
          simp [renderField, renderVal]

theorem scan1_brace : scan1 ['}'] = ['}'] := by
  rw [scan1_cons_none (matchP1_none_head _ (by decide) (by decide))]
  rw [scan1_nil]

/-- Pass 1 over all rendered fields: unchanged. -/
theorem scan1_fields : ∀ o : FlatObj, wf o = true →
    scan1 (renderFields o ++ ['}']) = renderFields o ++ ['}'] := by
  intro o
  induction o with
  | nil =>
    intro h
    exact scan1_brace
  | cons f o ih =>
    cases o with
    | nil =>
      intro h
      obtain ⟨hf, -⟩ := wf_parts h
      obtain ⟨hk0, hk, hv⟩ := wfField_parts hf
      show scan1 (renderField (f.1, f.2) ++ ['}']) = renderField (f.1, f.2) ++ ['}']
      rw [scan1_field ['}'] hk0 hk hv (Or.inr rfl), scan1_brace]
    | cons g rest =>
      intro h
      obtain ⟨hf, ho⟩ := wf_parts h
      obtain ⟨hk0, hk, hv⟩ := wfField_parts hf
      have hstep : scan1 (',' :: ' ' :: (renderFields (g :: rest) ++ ['}'])) =
          ',' :: ' ' :: (renderFields (g :: rest) ++ ['}']) := by
        rw [scan1_cons_none (matchP1_none_head _ (by decide) (by decide)),
          scan1_cons_none (matchP1_none_head _ (by decide) (by decide)), ih ho]
      calc scan1 (renderFields (f :: g :: rest) ++ ['}'])
          = scan1 (renderField (f.1, f.2) ++
              (',' :: ' ' :: (renderFields (g :: rest) ++ ['}']))) := by
            simp [renderFields]
        _ = renderField (f.1, f.2) ++
              scan1 (',' :: ' ' :: (renderFields (g :: rest) ++ ['}'])) := by
            rw [scan1_field (',' :: ' ' :: (renderFields (g :: rest) ++ ['}'])) hk0 hk hv
              (Or.inl rfl)]
        _ = renderFields (f :: g :: rest) ++ ['}'] := by
            rw [hstep]
            simp [renderFields]

/-- Pass 1 fixes every rendered strictly-quoted flat object. -/
theorem scan1_render (o : FlatObj) (h : wf o = true) : scan1 (render o) = render o := by
  show scan1 ('{' :: (renderFields o ++ ['}'])) = '{' :: (renderFields o ++ ['}'])
  rw [scan1_cons_none (matchP1_none_head _ (by decide) (by decide)), scan1_fields o h]

/-- One normalization of a rendered strictly-quoted flat object yields the
rendering of its normal form. -/
theorem normalize_render (o : FlatObj) (h : wf o = true) :
    parseUnquotedJSON (renderStr o) = renderStr (normObj o) := by
  show (⟨scan3 (scan2 (scan1 (render o)))⟩ : String) = ⟨render (normObj o)⟩
  rw [scan1_render o h, scan2_render o h,
    scan3_render _ (wf_numToStr h) (allStr_numToStr o)]
  rfl

theorem snsTimestampUnmarshal_str (s : String) :
    snsTimestampUnmarshal (Json.str s) =
      match parseRFC3339 s with
      | some ns => Dec.ok (tsOfNanos ns)
      | none => Dec.exit := rfl

/-! ## Claims -/

set_option maxRecDepth 100000 in
/-- C1, counterexample.  The claim quantifies over every RFC3339 string,
but `Time.UnixNano` wraps for instants before 1678: decoding
`0001-01-01T00:00:00Z` (whose real epoch value is -62135596800000 ms,
nanosecond value -62135596800000000000) and re-encoding yields
`-6795364578871`, the wrapped `int64` value divided by 1e6, not the
millisecond count. -/
theorem c1_counterexample :
    parseRFC3339 "0001-01-01T00:00:00Z" = some (-62135596800000000000) ∧
      snsTimestampRoundtrip "0001-01-01T00:00:00Z" = some "-6795364578871" ∧
      toString ((-62135596800000000000 : Int).tdiv 1000000) = "-62135596800000" ∧
      ("-6795364578871" : String) ≠ "-62135596800000" :=
  ⟨by decide, by decide, by decide, by decide⟩

/-- C1, amended.  For every RFC3339 timestamp string whose nanosecond epoch
value fits in `int64` (roughly years 1678-2262), decoding and then encoding
yields exactly the number of milliseconds since the Unix epoch (nanoseconds
divided by 1e6 with truncation) as a JSON number; in particular decoding
`2023-01-01T00:00:00.000Z` then encoding yields `1672531200000` (witness). -/
theorem c1_amended (s : String) (ns : Int) (hp : parseRFC3339 s = some ns)
    (h1 : -(2 ^ 63) ≤ ns) (h2 : ns < 2 ^ 63) :
    snsTimestampRoundtrip s = some (toString (ns.tdiv 1000000)) := by
  have habs : (ns.tdiv 1000000).natAbs = ns.natAbs / 1000000 := natAbs_tdiv ns 1000000
  have hnsabs : ns.natAbs ≤ 2 ^ 63 := by omega
  have hdivle : ns.natAbs / 1000000 ≤ 2 ^ 63 / 1000000 := Nat.div_le_div_right hnsabs
  have hms1 : -(2 ^ 63) ≤ ns.tdiv 1000000 := by omega
  have hms2 : ns.tdiv 1000000 < 2 ^ 63 := by omega
  unfold snsTimestampRoundtrip
  rw [snsTimestampUnmarshal_str, hp]
  show some (snsTimestampMarshal (tsOfNanos ns)) = some (toString (ns.tdiv 1000000))
  unfold tsOfNanos
  rw [wrap64_eq_of_range h1 h2, snsTimestampMarshal_eq_wrap,
    wrap64_eq_of_range hms1 hms2]

/-- C1, witness for the amended theorem at the spec's own example. -/
theorem c1_amended_witness :
    parseRFC3339 "2023-01-01T00:00:00.000Z" = some 1672531200000000000 ∧
      snsTimestampRoundtrip "2023-01-01T00:00:00.000Z" = some "1672531200000" := by
  refine ⟨by decide, ?_⟩
  rw [c1_amended "2023-01-01T00:00:00.000Z" 1672531200000000000 (by decide) (by decide)
    (by decide)]
  decide

/-- C2, counterexample.  A timestamp string that is not RFC3339 does not
produce a returned, typed error: `UnmarshalJSON` calls `exitErrorf`
(`log.Fatalf` → `os.Exit(1)`), terminating the process. -/
theorem c2_counterexample :
    snsTimestampUnmarshal (Json.str "not-a-date") = Dec.exit ∧
      (Dec.exit : Dec Int) ≠ Dec.err :=
  ⟨by decide, by decide⟩

/-- C2, amended.  For every string not parseable as RFC3339, decoding the
timestamp field terminates the process through `exitErrorf` rather than
returning a typed error; a typed error is returned only when the field's
value is not a JSON string at all. -/
theorem c2_amended (s : String) (h : parseRFC3339 s = none) :
    snsTimestampUnmarshal (Json.str s) = Dec.exit := by
  rw [snsTimestampUnmarshal_str, h]

/-- C2, witness for the amended theorem at the spec's own example. -/
theorem c2_amended_witness :
    parseRFC3339 "not-a-date" = none ∧
      snsTimestampUnmarshal (Json.str "not-a-date") = Dec.exit :=
  ⟨by decide, c2_amended "not-a-date" (by decide)⟩

/-- C3, counterexample.  The claim quantifies over every well-formed JSON
object, but the decoder unmarshals into `map[string]string`, so an object
with a non-string member value (here `{"a": 1}`) fails to decode and the
decode-then-encode composite does not produce `{}`. -/
theorem c3_counterexample :
    messageAttributesRoundtrip (Json.obj [("a", Json.num 1)]) = none ∧
      (none : Option String) ≠ some "{}" :=
  ⟨rfl, by decide⟩

/-- C3, amended.  For every well-formed JSON object all of whose member
values are strings (or nulls), decoding the `messageAttributes` field and
re-encoding yields exactly `{}`, regardless of the keys and values
originally present. -/
theorem c3_amended (fields : List (String × Json))
    (h : fields.all (fun p => isStringLike p.2) = true) :
    messageAttributesRoundtrip (Json.obj fields) = some "{}" := by
  simp [messageAttributesRoundtrip, messageAttributesUnmarshal, h,
    messageAttributesFieldMarshal]

/-- C3, witness for the amended theorem at the spec's own example
`{"a":"b","c":"d"}`. -/
theorem c3_amended_witness :
    ([("a", Json.str "b"), ("c", Json.str "d")].all (fun p => isStringLike p.2) = true) ∧
      messageAttributesRoundtrip (Json.obj [("a", Json.str "b"), ("c", Json.str "d")]) =
        some "{}" :=
  ⟨by decide, c3_amended _ (by decide)⟩

set_option maxRecDepth 100000 in
/-- C4, counterexample.  The end-to-end pipeline applied to the spec's flat
input text does not decode at all: normalization yields a bare
`"key": value, ...` sequence that is not a single JSON document, so
`json.Unmarshal` fails and the pipeline produces no output. -/
theorem c4_counterexample :
    pipeline "messageId: abc-123, signatureVersion: \"1\", timestamp: \"2023-06-15T12:00:00Z\", type: Notification, message: hello" = none ∧
      jsonParse (parseUnquotedJSON "messageId: abc-123, signatureVersion: \"1\", timestamp: \"2023-06-15T12:00:00Z\", type: Notification, message: hello") = none := by
  have hn := parseUnquotedJSON_eq_normalizeF
    "messageId: abc-123, signatureVersion: \"1\", timestamp: \"2023-06-15T12:00:00Z\", type: Notification, message: hello"
  constructor
  · rw [pipeline, hn]
    rfl
  · rw [hn]
    rfl

set_option maxRecDepth 100000 in
/-- C4, amended.  Normalization of the flat input text quotes the keys,
quotes the string values, and numerically unquotes `signatureVersion`
exactly as claimed; but the text only decodes once the fields are supplied
as the `sns` member of a JSON envelope object, in which case the pipeline
re-encodes to strict JSON with `messageId` the string `abc-123`,
`signatureVersion` the number 1, `timestamp` the number 1686830400000,
`type` the string `Notification`, and `message` the string `hello`. -/
theorem c4_amended :
    parseUnquotedJSON "messageId: abc-123, signatureVersion: \"1\", timestamp: \"2023-06-15T12:00:00Z\", type: Notification, message: hello" =
      "\"messageId\": \"abc-123\", \"signatureVersion\": 1, \"timestamp\": \"2023-06-15T12:00:00Z\", \"type\": \"Notification\", \"message\": \"hello\"" ∧
    pipeline "\x7b\"sns\": \x7bmessageId: abc-123, signatureVersion: \"1\", timestamp: \"2023-06-15T12:00:00Z\", type: Notification, message: hello\x7d\x7d" =
      some "\x7b\"sns\":\x7b\"messageAttributes\":null,\"signingCertUrl\":\"\",\"messageId\":\"abc-123\",\"message\":\"hello\",\"unsubscribeUrl\":\"\",\"type\":\"Notification\",\"signatureVersion\":1,\"signature\":\"\",\"timestamp\":1686830400000,\"topicArn\":\"\"\x7d,\"eventVersion\":0,\"eventSource\":\"\",\"eventSubscriptionArn\":\"\"\x7d" := by
  constructor
  · rw [parseUnquotedJSON_eq_normalizeF]
    decide
  · rw [pipeline, parseUnquotedJSON_eq_normalizeF]
    decide

set_option maxRecDepth 100000 in
/-- C5, counterexample.  When the optional placeholder pointer is nil,
`encoding/json` writes `null` for the field without calling the custom
marshaller, so the encoded envelope carries `"messageAttributes":null`,
not `{}`. -/
theorem c5_counterexample :
    messageAttributesFieldMarshal none = "null" ∧ ("null" : String) ≠ "{}" ∧
      marshalSns {} =
        "\x7b\"messageAttributes\":null,\"signingCertUrl\":\"\",\"messageId\":\"\",\"message\":\"\",\"unsubscribeUrl\":\"\",\"type\":\"\",\"signatureVersion\":0,\"signature\":\"\",\"timestamp\":0,\"topicArn\":\"\"\x7d" :=
  ⟨rfl, by decide, by decide⟩

/-- C5, amended.  Encode serializes the `messageAttributes` field as the
empty object `{}` whenever the placeholder is present (whatever its
contents), and as `null` — not `{}` — when the optional placeholder is
absent (the nil-pointer case). -/
theorem c5_amended :
    (∀ m : MessageAttributes, messageAttributesFieldMarshal (some m) = "{}") ∧
      messageAttributesFieldMarshal none = "null" :=
  ⟨fun _ => rfl, rfl⟩

/-- C6, counterexample.  A well-formed object whose member value is itself
an object (here `{"a": {}}`) fails `json.Unmarshal` into
`map[string]string`, so decoding returns an error rather than the empty
placeholder. -/
theorem c6_counterexample :
    messageAttributesUnmarshal (Json.obj [("a", Json.obj [])]) = Dec.err ∧
      ∀ m : MessageAttributes, (Dec.err : Dec MessageAttributes) ≠ Dec.ok m :=
  ⟨rfl, fun _ h => Dec.noConfusion h⟩

/-- C6, amended.  Decoding the `messageAttributes` field succeeds — always
producing the empty placeholder — exactly for well-formed objects all of
whose member values are strings (or nulls); objects with other member
values (numbers, booleans, arrays, nested objects) are decode errors. -/
theorem c6_amended (fields : List (String × Json))
    (h : fields.all (fun p => isStringLike p.2) = true) :
    messageAttributesUnmarshal (Json.obj fields) = Dec.ok ⟨"", ""⟩ := by
  simp [messageAttributesUnmarshal, h]

/-- C6, witness for the amended theorem. -/
theorem c6_amended_witness :
    ([("x", Json.null), ("y", Json.str "z")].all (fun p => isStringLike p.2) = true) ∧
      messageAttributesUnmarshal (Json.obj [("x", Json.null), ("y", Json.str "z")]) =
        Dec.ok ⟨"", ""⟩ :=
  ⟨by decide, c6_amended _ (by decide)⟩

/-- C7.  The normalizer is a total function on strings: for every input —
including text that deviates from the expected shallow `key: value` shape —
it returns a result string (the three substitution passes cannot fail; a
malformed result only surfaces later, at decode). -/
theorem c7_normalize_total (s : String) : ∃ t : String, parseUnquotedJSON s = t :=
  ⟨_, rfl⟩

set_option maxRecDepth 100000 in
/-- C8.  Normalization is idempotent on inputs already containing strict
JSON quoting: for every flat object text with double-quoted identifier
keys and values that are double-quoted safe-class strings or bare numeric
literals (the program's strictly-quoted input family),
`normalize (normalize x) = normalize x`. -/
theorem c8_normalize_idempotent (o : FlatObj) (h : wf o = true) :
    parseUnquotedJSON (parseUnquotedJSON (renderStr o)) = parseUnquotedJSON (renderStr o) := by
  rw [normalize_render o h, normalize_render (normObj o) (wf_normObj h), normObj_idem]

/-- C8, witness at the spec's own example
`{"eventVersion": 1.0, "eventSource": "aws:sns"}`. -/
theorem c8_normalize_idempotent_witness :
    wf [("eventVersion".data, Val.vnum "1.0".data),
        ("eventSource".data, Val.vstr "aws:sns".data)] = true ∧
      parseUnquotedJSON (parseUnquotedJSON (renderStr
          [("eventVersion".data, Val.vnum "1.0".data),
           ("eventSource".data, Val.vstr "aws:sns".data)])) =
        parseUnquotedJSON (renderStr
          [("eventVersion".data, Val.vnum "1.0".data),
           ("eventSource".data, Val.vstr "aws:sns".data)]) :=
  ⟨by decide, c8_normalize_idempotent _ (by decide)⟩

/-- C9, counterexample.  The value-quoting pass does not leave a value with
characters outside the safe class entirely untouched: on `: hello world`
it quotes the leading safe run, rewriting the text to `: "hello" world`. -/
theorem c9_counterexample :
    pass2 ": hello world" = ": \"hello\" world" ∧
      pass2 ": hello world" ≠ ": hello world" := by
  have h : pass2 ": hello world" = ": \"hello\" world" := by
    unfold pass2
    rw [← scanF_eq_scan2 ": hello world".data.length _ (le_refl _)]
    decide
  exact ⟨h, by rw [h]; decide⟩

/-- C9, amended.  On a value whose maximal leading run of safe-class
characters is `v` and whose remainder `w` starts with a character outside
the class (and not a quote), the value-quoting pass wraps `v` — and only
`v` — in double quotes and then continues scanning `w`; the remainder is
not consumed by this match, but it is not guaranteed untouched, since
scanning continues inside it. -/
theorem c9_amended (v w : List Char) (hv0 : v ≠ [])
    (hv : ∀ c ∈ v, isSafeChar c = true)
    (hw : ∀ c w', w = c :: w' → isSafeChar c = false ∧ isQuoteChar c = false) :
    scan2 (':' :: ' ' :: (v ++ w)) = ':' :: ' ' :: '"' :: v ++ '"' :: scan2 w := by
  rw [scan2_cons_some (matchP2_bare_value hv0 hv hw)]
  simp

/-- C9, witness for the amended theorem on the value `hello world`. -/
theorem c9_amended_witness :
    ("hello".data ≠ [] ∧ (∀ c ∈ "hello".data, isSafeChar c = true)) ∧
      scan2 (':' :: ' ' :: ("hello".data ++ " world".data)) =
        ':' :: ' ' :: '"' :: "hello".data ++ '"' :: scan2 " world".data :=
  ⟨⟨by decide, by decide⟩,
    c9_amended _ _ (by decide) (by decide)
      (fun c w' hc => by
        rw [show " world".data = ' ' :: "world".data from rfl] at hc
        injection hc with h1 h2
        subst h1
        exact ⟨by decide, by decide⟩)⟩

/-- C10.  The timestamp decoder unmarshals the raw value into a Go string
and so returns an error for every JSON number; since the encoder emits the
timestamp as a bare decimal number (shown here on the canonical encoded
value 1686830400000), the decode stage cannot be re-run on bytes the
encode stage produced. -/
theorem c10_decode_rejects_encoded_numbers :
    (∀ n : Int, snsTimestampUnmarshal (Json.num n) = Dec.err) ∧
      jsonParse (snsTimestampMarshal 1686830400000) = some (Json.num 1686830400000) :=
  ⟨fun _ => rfl, rfl⟩

end S3Fixer
